import Mathlib

/-
Verification development for the ORF-RATER pipeline (find_ORFs.py and
regress_orfs.py). Python code is shallowly embedded: nucleotide sequences
are lists of characters, numpy arrays are lists of rationals, DataFrames
are lists of records, and Python slice arithmetic is modelled explicitly
by pyIdx and friends. All definitions are executable.
-/

set_option autoImplicit false

namespace ORFR

/-! ## Definitions -/

/-! ### Python slice semantics

Helpers modelling the semantics of Python sequence slicing with possibly
negative bounds, used throughout both scripts. `pyIdx v n` is the
effective nonnegative index that a Python bound `v` denotes in a sequence
of length `n` (negative values count from the end and everything is
clamped into `[0, n]`). -/

def pyIdx (v : Int) (n : Nat) : Nat :=
  if v < 0 then ((n : Int) + v).toNat else min v.toNat n

/-- Python `l[v:]`. -/
def pySliceFrom (v : Int) {α : Type} (l : List α) : List α :=
  l.drop (pyIdx v l.length)

/-- Python `l[:v]`. -/
def pySliceTo (v : Int) {α : Type} (l : List α) : List α :=
  l.take (pyIdx v l.length)

/-- Python `l[a:b]`. -/
def pySlice (a b : Int) {α : Type} (l : List α) : List α :=
  (l.take (pyIdx b l.length)).drop (pyIdx a l.length)

/-! ### find_ORFs.py : ORF enumeration

The transcript sequence is a `List Char` of upper-case nucleotides.
`STOP_RE = (?:...)*?(?:TAG|TAA|TGA)` anchored at the start of a string is
modelled by `stopScan`, which walks the sequence three characters at a
time and returns the exclusive end offset of the first in-frame stop
codon, if any. -/

/-- The three canonical stop codons TAG, TAA, TGA. -/
def isStopTriple (a b c : Char) : Bool :=
  (a = 'T' && b = 'A' && c = 'G') || (a = 'T' && b = 'A' && c = 'A') ||
    (a = 'T' && b = 'G' && c = 'A')

/-- Semantics of matching `STOP_RE` at the start of `l`: the exclusive end
offset of the first in-frame stop codon, scanning in codon strides. -/
def stopScan : List Char → Option Nat
  | a :: b :: c :: rest =>
    if isStopTriple a b c then some 3
    else (stopScan rest).map (· + 3)
  | _ => none

/-- Whether the three characters of `l` starting at offset `k` form a stop
codon (false when fewer than three characters remain). -/
def stopAt (l : List Char) (k : Nat) : Bool :=
  match l.drop k with
  | a :: b :: c :: _ => isStopTriple a b c
  | _ => false

/-- IUPAC degenerate nucleotide codes over DNA, as documented in the
find_ORFs.py command surface ("Standard IUPAC nucleotide codes are
recognized"); this is the table the start-codon regex is compiled from. -/
def iupacChars (p : Char) : List Char :=
  if p = 'A' then ['A'] else if p = 'C' then ['C'] else
  if p = 'G' then ['G'] else if p = 'T' then ['T'] else
  if p = 'R' then ['A', 'G'] else if p = 'Y' then ['C', 'T'] else
  if p = 'S' then ['C', 'G'] else if p = 'W' then ['A', 'T'] else
  if p = 'K' then ['G', 'T'] else if p = 'M' then ['A', 'C'] else
  if p = 'B' then ['C', 'G', 'T'] else if p = 'D' then ['A', 'G', 'T'] else
  if p = 'H' then ['A', 'C', 'T'] else if p = 'V' then ['A', 'C', 'G'] else
  if p = 'N' then ['A', 'C', 'G', 'T'] else []

/-- A single IUPAC pattern character matching a base. -/
def iupacMatch (p base : Char) : Bool := base ∈ iupacChars p

/-- A codon pattern (three IUPAC characters) matching a codon-sized slice;
`START_RE.match` on the length-3 slice `myseq[i:i+3]`. -/
def codonMatches (pat : List Char) (s : List Char) : Bool :=
  pat.length = s.length && (List.zipWith iupacMatch pat s).all id

/-- The alternation over the configured start-codon set. -/
def startMatches (codons : List (List Char)) (s : List Char) : Bool :=
  codons.any (fun pat => codonMatches pat s)

/-- Embedding of `find_all_ORFs` from find_ORFs.py: all triples
`(i, stop, codon)` where `myseq[i:i+3]` matches the start-codon regex,
`stop` is the exclusive end of the first in-frame stop codon after `i`
(0 when none exists), and `codon` is the matched slice. -/
def find_all_ORFs (codons : List (List Char)) (myseq : List Char) :
    List (Nat × Nat × List Char) :=
  (List.range (myseq.length - 2)).filterMap (fun i =>
    let tri := (myseq.drop i).take 3
    if startMatches codons tri then
      some (i, (match stopScan (myseq.drop i) with
                | some e => e + i
                | none => 0), tri)
    else none)

/-! ### Decimal rendering (the %d conversion used when building ORF names) -/

/-- The ASCII character of a decimal digit. -/
def digitChar (d : Nat) : Char := Char.ofNat (48 + d)

/-- Decimal digit string of a natural, most significant digit first,
computed with structural fuel (the fuel `n + 1` always suffices). -/
def natDigitsAux : Nat → Nat → List Char
  | 0, _ => []
  | fuel + 1, n =>
    if n < 10 then [digitChar n]
    else natDigitsAux fuel (n / 10) ++ [digitChar (n % 10)]

/-- Decimal rendering of a natural number, as Python `%d` produces. -/
def natRepr (n : Nat) : String := ⟨natDigitsAux (n + 1) n⟩

/-- Value of a decimal digit string, used to invert `natRepr`. -/
def decVal (l : List Char) : Nat :=
  l.foldl (fun a c => 10 * a + (c.toNat - 48)) 0

/-! ### find_ORFs.py : canonical ORF naming within a transcript family

An ORF within a `(gcoord, AAlen)` group is identified by its realized
genomic path: the slice `np.flatnonzero(tmask[tidx])[tcoord:tstop]` of
family-axis positions it covers. The `while unnamed.any()` loop of
`identify_tfam_ORFs` is embedded as `nameLoopAux` with structural fuel
equal to the number of unnamed rows, which always suffices. -/

/-- A realized genomic path: the positions covered by an ORF. -/
abbrev GPath := List Nat

/-- Indices at which a boolean mask is true, `np.flatnonzero`. -/
def flatnonzero (mask : List Bool) : List Nat :=
  (List.range mask.length).filter (fun i => mask.getD i false)

/-- The realized genomic path of one ORF:
`np.flatnonzero(tmask[tidx])[tcoord:tstop]`. -/
def orfPath (mask : List Bool) (tcoord tstop : Nat) : List Nat :=
  pySlice (tcoord : Int) (tstop : Int) (flatnonzero mask)

/-- Embedding of `name_ORF` from find_ORFs.py. -/
def name_ORF (tfam : String) (gcoord AAlen : Nat) : String :=
  tfam ++ "_" ++ natRepr gcoord ++ "_" ++ natRepr AAlen ++ "aa"

/-- The first row still unnamed, with its path: `ORF_gcoords[unnamed][0]`. -/
def firstUnnamedPath : List (GPath × Option Nat) → Option GPath
  | [] => none
  | (p, none) :: _ => some p
  | (_, some _) :: rest => firstUnnamedPath rest

/-- Mark every row whose path equals the pivot path with class index `k`. -/
def markOne (p : GPath) (k : Nat) (q : GPath × Option Nat) :
    GPath × Option Nat :=
  if q.1 = p then (q.1, some k) else q

/-- Name the whole identity class of the pivot row (`identicals`). -/
def markPath (p : GPath) (k : Nat) (l : List (GPath × Option Nat)) :
    List (GPath × Option Nat) :=
  l.map (markOne p k)

/-- Number of rows not yet named (`unnamed` has that many True entries). -/
def countUnnamed (l : List (GPath × Option Nat)) : Nat :=
  l.countP (fun q => q.2.isNone)

/-- One fuelled unfolding of the `while unnamed.any()` loop of
`identify_tfam_ORFs`: pick the first unnamed row, name its whole identity
class with the next class index, repeat. -/
def nameLoopAux : Nat → List (GPath × Option Nat) → Nat →
    List (GPath × Option Nat)
  | 0, l, _ => l
  | fuel + 1, l, k =>
    match firstUnnamedPath l with
    | none => l
    | some p => nameLoopAux fuel (markPath p k l) (k + 1)

/-- The naming loop run to completion (`named_so_far` starts at `k`). -/
def nameLoop (l : List (GPath × Option Nat)) (k : Nat) :
    List (GPath × Option Nat) :=
  nameLoopAux (countUnnamed l) l k

/-- Keep-first deduplication; `dedupF l` lists the distinct elements of
`l` in order of first encounter. -/
def dedupF {α : Type} [DecidableEq α] : List α → List α
  | [] => []
  | x :: t => x :: (dedupF t).filter (fun y => y ≠ x)

/-- Embedding of the per-`(gcoord, AAlen)` naming logic of
`identify_tfam_ORFs` (find_ORFs.py lines 129-145), applied to the list of
realized genomic paths of the rows in the group, in input order. A
singleton group and a group whose rows all share one path get the bare
`name_ORF` name; otherwise each identity class of paths is suffixed with
a zero-based class index in order of first encounter. -/
def identify_group (tfam : String) (gcoord AAlen : Nat) (ps : List GPath) :
    List String :=
  if ps.length = 1 then [name_ORF tfam gcoord AAlen]
  else if ps.all (fun p => p == ps.headI) then
    ps.map (fun _ => name_ORF tfam gcoord AAlen)
  else
    (nameLoop (ps.map (fun p => (p, (none : Option Nat)))) 0).map
      (fun q => name_ORF tfam gcoord AAlen ++ "_" ++ natRepr (q.2.getD 0))

/-! Support lemmas for the naming loop. -/

/-- Paths of the rows still unnamed, in input order. -/
def unnamedPaths : List (GPath × Option Nat) → List GPath
  | [] => []
  | (p1, none) :: rest => p1 :: unnamedPaths rest
  | (_, some _) :: rest => unnamedPaths rest

/-- Index of the first occurrence of a path in a list of paths. -/
def idxOfP (p : GPath) : List GPath → Nat
  | [] => 0
  | x :: t => if x = p then 0 else idxOfP p t + 1

/-- Over the run of the naming loop, rows already named never share a path
with a row still unnamed (true initially because no row is named). -/
def NamedSep (l : List (GPath × Option Nat)) : Prop :=
  ∀ q ∈ l, q.2.isSome = true → q.1 ∉ unnamedPaths l

/-! ### find_ORFs.py : genomic coordinates of identified ORFs

`identify_tfam_ORFs` converts transcript-relative coordinates to genomic
ones through the external coordinate translator, modelled as lookup into
the stranded genomic-position list of the transcript
(`curr_trans.get_genomic_coordinate(i)[1]` = `positions[i]`). The stop
adjustment on line 111 is `+ (strand == plus)*2 - 1`. -/

/-- Stranded coordinate lookup provided by the external genomic library. -/
def get_genomic_coordinate (positions : List Int) (idx : Nat) : Int :=
  positions.getD idx 0

/-- Embedding of the per-ORF `gstops` computation of `identify_tfam_ORFs`
(find_ORFs.py lines 109-112): for an ORF with a stop present, the genomic
coordinate of the last base of the stop codon plus
`(strand == plus)*2 - 1`; zero otherwise. -/
def gstopsOf (strand_plus : Bool) (positions : List Int)
    (orfs : List (Nat × Nat × List Char)) : List Int :=
  orfs.map (fun o =>
    if 0 < o.2.1 then
      get_genomic_coordinate positions (o.2.1 - 1) +
        (if strand_plus then 2 else 0) - 1
    else 0)

/-! ### regress_orfs.py : the ORF profile synthesizer `_orf_profile`

Metagene profiles are matrices stored as lists of rows (one row per read
length). `startnt` and `stopnt` are the modeled windows around the start
and stop codons, as signed pairs of nucleotide offsets; `startnt.1 ≤ 0`,
`stopnt.1 < 0` in any run that passes the configuration check. -/

/-- Column-wise concatenation of two row-major matrices, `np.hstack`. -/
def hstack2 (A B : List (List Rat)) : List (List Rat) :=
  List.zipWith (· ++ ·) A B

/-- Row-wise tiling of a matrix `m` times, `np.tile(A, m)`. -/
def tileCols (A : List (List Rat)) (m : Nat) : List (List Rat) :=
  A.map (fun row => (List.replicate m row).flatten)

/-- Number of tiled copies of the single-codon body template used by
`_orf_profile` in the long-ORF regime:
`(orflen - startnt[1] + stopnt[0]) / 3`. -/
def numBodyTiles (startnt stopnt : Int × Int) (orflen : Nat) : Nat :=
  (((orflen : Int) - startnt.2 + stopnt.1) / 3).toNat

/-- Embedding of `_orf_profile` from regress_orfs.py (lines 167-190):
stitches the expected profile of an ORF of `orflen` nucleotides from the
start-region template, tiled copies of the single-codon body template,
and the stop-region template, with four length regimes (`short_stop` is
the literal 9). -/
def orf_profile (startnt stopnt : Int × Int)
    (startprof cdsprof stopprof : List (List Rat)) (orflen : Nat) :
    List (List Rat) :=
  if startnt.2 - stopnt.1 ≤ (orflen : Int) then
    hstack2 startprof
      (hstack2 (tileCols cdsprof (numBodyTiles startnt stopnt orflen))
        stopprof)
  else if startnt.2 + 9 ≤ (orflen : Int) then
    hstack2 startprof
      (stopprof.map (pySliceFrom (startnt.2 - (orflen : Int) - stopnt.2)))
  else if 9 ≤ (orflen : Int) then
    hstack2 (startprof.map (pySliceTo ((orflen : Int) - 9 - startnt.1)))
      (stopprof.map (pySliceFrom (-9 - stopnt.2)))
  else
    hstack2 (startprof.map (pySliceTo (3 - startnt.1)))
      (stopprof.map (pySliceFrom (3 - (orflen : Int) - stopnt.1)))

/-! ### regress_orfs.py : the per-family regression pipeline `_regress_tfam`

DataFrames are lists of records. The candidate table `orf_strength_df` is
built from the full-length ORFs (deduplicated by name, keeping a longest
transcript-coordinate instance), one synthetic abortive-initiation
variant per distinct genomic start, and — unless start-only mode — one
synthetic histop variant per distinct genomic stop. Each candidate is
tagged with which of the three concatenated blocks produced it; the tag
is never consulted by the pipeline itself (which uses the same field
flags as the source) and only serves the statements of theorems. -/

/-- One row of the per-family ORF set handed to `_regress_tfam`. -/
structure OrfRow where
  orfname : String
  tid : String
  tcoord : Nat
  tstop : Nat
  gcoord : Nat
  gstop : Nat
  codon : String
deriving DecidableEq, Repr

/-- Which block of `orf_strength_df` a candidate came from. -/
inductive OrfVariant
  | full
  | abortive
  | histop
deriving DecidableEq, Repr

/-- A regression candidate: an ORF row plus its block of origin. -/
structure Cand where
  row : OrfRow
  variant : OrfVariant
deriving DecidableEq, Repr

/-- Keep-first deduplication by a key (`pandas.drop_duplicates`). -/
def dedupBy {α β : Type} [DecidableEq β] (key : α → β) : List α → List α
  | [] => []
  | x :: t => x :: (dedupBy key t).filter (fun y => key y ≠ key x)

/-- Insertion into a list sorted by descending `tcoord`. -/
def insertDescTcoord (x : OrfRow) : List OrfRow → List OrfRow
  | [] => [x]
  | y :: t =>
    if y.tcoord < x.tcoord then x :: y :: t else y :: insertDescTcoord x t

/-- Sort by descending `tcoord` (`orf_set.sort('tcoord', ascending=False)`;
tie order among equal keys is unspecified in the source). -/
def sortDescTcoord (l : List OrfRow) : List OrfRow :=
  l.foldr insertDescTcoord []

/-- The synthetic abortive-initiation row for a genomic start: stop right
after the first codon, `gstop := gcoord` as the flag. -/
def abortRow (tfam : String) (r : OrfRow) : OrfRow :=
  { r with
    gstop := r.gcoord
    tstop := r.tcoord + 3
    orfname := tfam ++ "_" ++ natRepr r.gcoord ++ "_abort" }

/-- The synthetic histop row for a genomic stop: `tcoord := tstop` and
`gcoord := gstop` as the flags. -/
def histopRow (tfam : String) (r : OrfRow) : OrfRow :=
  { r with
    gcoord := r.gstop
    tcoord := r.tstop
    orfname := tfam ++ "_" ++ natRepr r.gstop ++ "_stop" }

/-- Embedding of the candidate-table construction of `_regress_tfam`
(regress_orfs.py lines 238-249). -/
def buildCandidates (tfam : String) (startonly : Bool)
    (orf_set : List OrfRow) : List Cand :=
  let fulls := (dedupBy (fun r => r.orfname) (sortDescTcoord orf_set)).map
    (fun r => (⟨r, OrfVariant.full⟩ : Cand))
  let aborts := (dedupBy (fun r => r.gcoord) orf_set).map
    (fun r => (⟨abortRow tfam r, OrfVariant.abortive⟩ : Cand))
  let histops := (dedupBy (fun r => r.gstop) orf_set).map
    (fun r => (⟨histopRow tfam r, OrfVariant.histop⟩ : Cand))
  (fulls ++ aborts) ++ (if startonly then [] else histops)

/-- Per-family fixed data: family axis size `nnt`, number of read
lengths, metagene windows and templates, per-transcript index arrays into
the family axis, and transcript lengths. -/
structure FamParams where
  nnt : Nat
  nrdlens : Nat
  startnt : Int × Int
  stopnt : Int × Int
  startprof : List (List Rat)
  cdsprof : List (List Rat)
  stopprof : List (List Rat)
  tidIndices : String → List Nat
  tlens : String → Nat

/-- Embedding of the per-candidate profile and flattened-index
construction of `_regress_tfam` (regress_orfs.py lines 252-269),
including the UTR truncation adjustments. -/
def candProfIdx (P : FamParams) (c : Cand) : List Rat × List Nat :=
  if c.row.tcoord ≠ c.row.tstop then
    let tlen := P.tlens c.row.tid
    let startadj : Nat :=
      if (c.row.tcoord : Int) + P.startnt.1 < 0 then
        (-P.startnt.1 - c.row.tcoord).toNat
      else 0
    let stopadj : Nat :=
      if (tlen : Int) < (c.row.tstop : Int) + P.stopnt.2 then
        ((c.row.tstop : Int) + P.stopnt.2 - tlen).toNat
      else 0
    let orflen := c.row.tstop - c.row.tcoord
    let prof := ((orf_profile P.startnt P.stopnt P.startprof P.cdsprof
      P.stopprof orflen).map (pySlice (startadj : Int)
        ((orflen : Int) + P.stopnt.2 - P.startnt.1 - stopadj))).flatten
    let curr := pySlice ((c.row.tcoord : Int) + P.startnt.1 + startadj)
      ((c.row.tstop : Int) + P.stopnt.2 - stopadj) (P.tidIndices c.row.tid)
    (prof, ((List.range P.nrdlens).map (fun i =>
      curr.map (fun idx => P.nnt * i + idx))).flatten)
  else
    ((P.stopprof.map (pySliceFrom (-6))).flatten,
     ((List.range P.nrdlens).map (fun i =>
       (pySlice ((c.row.tstop : Int) - 6) (c.row.tstop : Int)
         (P.tidIndices c.row.tid)).map (fun idx =>
           P.nnt * i + idx))).flatten)

/-- A csc-style column: values scattered onto the flattened
position-by-read-length axis of `PL` entries. -/
def scatter (PL : Nat) (idxs : List Nat) (vals : List Rat) : List Rat :=
  (List.range PL).map (fun r =>
    (((idxs.zip vals).filter (fun pr => pr.1 == r)).map Prod.snd).sum)

/-- Column construction with the per-candidate consistency check of
regress_orfs.py lines 270-271: a profile whose length disagrees with its
mapped index count raises `AssertionError`. -/
def buildColumns (P : FamParams) (cands : List Cand) :
    Except String (List (List Rat)) :=
  cands.mapM (fun c =>
    let pr := candProfIdx P c
    if pr.2.length = pr.1.length then
      Except.ok (scatter (P.nnt * P.nrdlens) pr.2 pr.1)
    else Except.error "ORF length does not match index length")

/-- Inner product of two count vectors. -/
def dot (a b : List Rat) : Rat := (List.zipWith (· * ·) a b).sum

/-- The fixed NNLS weight tolerance `min_str = 1e-6` of `_regress_tfam`
(the Python literal denotes the rational 1/1000000 up to the binary
rounding of the float literal, which is immaterial to the claims). -/
def minStr : Rat := 1 / 1000000

/-- Candidates retained after the weight-tolerance cut
(`usable_orfs = orf_strs > min_str`), with their columns and strengths. -/
def retainedOf (cands : List Cand) (cols : List (List Rat))
    (xs : List Rat) : List (Cand × List Rat × Rat) :=
  ((cands.zip cols).zip xs).filterMap (fun t =>
    if minStr < t.2 then some (t.1.1, t.1.2, t.2) else none)

/-- The Gram matrix `orf_matrix.T.dot(orf_matrix)` of the retained
columns. -/
def gramOf (ret : List (Cand × List Rat × Rat)) :
    Matrix (Fin ret.length) (Fin ret.length) Rat :=
  Matrix.of (fun a b => dot (ret.get a).2.1 (ret.get b).2.1)

/-- Matrix inverse by the adjugate formula, the embedding of
`np.linalg.inv` over the rationals (agrees with Mathlib Inv.inv on
square rational matrices; see `matInv_eq_inv`). -/
def matInv {k : Nat} (A : Matrix (Fin k) (Fin k) Rat) :
    Matrix (Fin k) (Fin k) Rat :=
  (A.det)⁻¹ • A.adjugate

/-- The homoscedastic covariance estimate of `_regress_tfam` line 292:
`resid*resid*inv(MᵀM)/(nnt*len(rdlens) - len(orf_strength_df))`. -/
def covMatrixOf (resid : Rat) (PL : Nat)
    (ret : List (Cand × List Rat × Rat)) :
    Matrix (Fin ret.length) (Fin ret.length) Rat :=
  (resid * resid / ((PL : Rat) - ret.length)) • matInv (gramOf ret)

/-- One row of the per-ORF output table. -/
structure OrfOut where
  cand : Cand
  orf_strength : Rat
  w_orf : Rat
deriving DecidableEq, Repr

/-- The per-ORF output table of `_regress_tfam`: retained candidates with
their fitted strengths and Wald statistics
`orf_strength^2 / diag(covmat)`. -/
def orfTableOf (resid : Rat) (PL : Nat)
    (ret : List (Cand × List Rat × Rat)) : List OrfOut :=
  (List.finRange ret.length).map (fun i =>
    ⟨(ret.get i).1, (ret.get i).2.2,
     (ret.get i).2.2 * (ret.get i).2.2 / covMatrixOf resid PL ret i i⟩)

/-- The per-start aggregation of `_regress_tfam` lines 303-318: group the
included rows by genomic start and sum strengths. In start-only mode the
inclusion mask is `tcoord != tstop` (histop excluded, abortive kept);
otherwise it is `gstop != gcoord` (elongating ORFs only). -/
def startTableOf (startonly : Bool) (rows : List OrfOut) :
    List (Nat × Rat) :=
  let incl := rows.filter (fun o =>
    if startonly then o.cand.row.tcoord != o.cand.row.tstop
    else o.cand.row.gstop != o.cand.row.gcoord)
  (dedupF (incl.map (fun o => o.cand.row.gcoord))).map (fun g =>
    (g, ((incl.filter (fun o => o.cand.row.gcoord == g)).map
      (fun o => o.orf_strength)).sum))

/-- The per-stop aggregation of `_regress_tfam` lines 322-331: group by
genomic stop over elongating ORFs plus histop variants (abortive
excluded) and sum strengths. -/
def stopTableOf (rows : List OrfOut) : List (Nat × Rat) :=
  let incl := rows.filter (fun o =>
    (o.cand.row.gstop != o.cand.row.gcoord) ||
      (o.cand.row.tcoord == o.cand.row.tstop))
  (dedupF (incl.map (fun o => o.cand.row.gstop))).map (fun g =>
    (g, ((incl.filter (fun o => o.cand.row.gstop == g)).map
      (fun o => o.orf_strength)).sum))

/-- The three result tables of one family regression (the per-stop table
stays empty in start-only mode, where the source returns a 2-tuple). -/
structure RegResults where
  orfTable : List OrfOut
  startTable : List (Nat × Rat)
  stopTable : List (Nat × Rat)
deriving DecidableEq, Repr

/-- `failure_return`: empty result tables, not an error. -/
def emptyResults : RegResults := ⟨[], [], []⟩

/-- Reads within one nucleotide of the start codon, summed across read
lengths: `counts[start_idxes.repeat(len(rdlens)) + offsetmat].sum()` with
`start_idxes = tid_indices[tid][tcoord-1:tcoord+2]`. -/
def startWindowSum (P : FamParams) (counts : List Rat) (r : OrfRow) :
    Rat :=
  ((pySlice ((r.tcoord : Int) - 1) ((r.tcoord : Int) + 2)
    (P.tidIndices r.tid)).map (fun idx =>
      ((List.range P.nrdlens).map (fun i =>
        counts.getD (idx + P.nnt * i) 0)).sum)).sum

/-- The optional start-count pre-filter (regress_orfs.py lines 229-234);
`if opts.startcount:` is false for the default value 0, so no filtering
happens then. -/
def prefilteredSet (P : FamParams) (startcount : Nat) (counts : List Rat)
    (orf_set : List OrfRow) : List OrfRow :=
  if startcount ≠ 0 then
    orf_set.filter (fun r => (startcount : Rat) ≤ startWindowSum P counts r)
  else orf_set

/-- Embedding of `_regress_tfam` (regress_orfs.py lines 199-345), from
the pre-filter through the result tables, parametric in the external
NNLS solver. W_start and W_stop (the groupwise multivariate Wald
statistics) are not modelled; no claim concerns them. -/
def regressCore (P : FamParams) (tfam : String) (startonly : Bool)
    (startcount : Nat)
    (nnlsFn : List (List Rat) → List Rat → List Rat × Rat)
    (orf_set0 : List OrfRow) (counts : List Rat) :
    Except String RegResults :=
  let orf_set := prefilteredSet P startcount counts orf_set0
  if startcount ≠ 0 ∧ orf_set = [] then Except.ok emptyResults
  else
    match buildColumns P (buildCandidates tfam startonly orf_set) with
    | Except.error e => Except.error e
    | Except.ok cols =>
      let pairs := ((buildCandidates tfam startonly orf_set).zip
        cols).filter (fun pc => 0 < dot pc.2 counts)
      if pairs = [] then Except.ok emptyResults
      else
        let nr := nnlsFn (pairs.map Prod.snd) counts
        let ret := retainedOf (pairs.map Prod.fst) (pairs.map Prod.snd)
          nr.1
        if ret = [] then Except.ok emptyResults
        else
          let rows := orfTableOf nr.2 (P.nnt * P.nrdlens) ret
          Except.ok ⟨rows, startTableOf startonly rows,
            if startonly then [] else stopTableOf rows⟩

/-- The per-family inputs a chromosome worker assembles before calling
`_regress_tfam`. -/
structure FamInput where
  pars : FamParams
  tfam : String
  orf_set : List OrfRow
  counts : List Rat

/-- Embedding of the family loop of `_regress_chrom` (regress_orfs.py
line 372): run every family and concatenate the per-family tables; any
per-family exception aborts the whole chromosome. -/
def regressChrom (startonly : Bool) (startcount : Nat)
    (nnlsFn : List (List Rat) → List Rat → List Rat × Rat)
    (fams : List FamInput) : Except String RegResults :=
  (fams.mapM (fun f =>
    regressCore f.pars f.tfam startonly startcount nnlsFn f.orf_set
      f.counts)).map
    (fun rs => ⟨(rs.map RegResults.orfTable).flatten,
      (rs.map RegResults.startTable).flatten,
      (rs.map RegResults.stopTable).flatten⟩)

/-- One row of the on-disk ORF catalog as read by `_regress_chrom`. -/
structure CatRow where
  orfname : String
  tfam : String
  tid : String
  tcoord : Nat
  tstop : Nat
  chrom : String
  gcoord : Nat
  gstop : Nat
deriving DecidableEq, Repr

/-- Embedding of the catalog query of `_regress_chrom` (regress_orfs.py
line 350): `chrom == chrom_to_do and tstop > 0 and tcoord > 0`. -/
def regressChromQuery (catalog : List CatRow) (chrom_to_do : String) :
    List CatRow :=
  catalog.filter (fun r =>
    r.chrom == chrom_to_do && decide (0 < r.tstop) &&
      decide (0 < r.tcoord))

/-! ### The external NNLS solver, modelled from the spec -/

/-- Pointwise difference of two vectors. -/
def vecSub (a b : List Rat) : List Rat := List.zipWith (· - ·) a b

/-- Pointwise sum of two vectors. -/
def vecAdd (a b : List Rat) : List Rat := List.zipWith (· + ·) a b

/-- A scalar multiple of a vector. -/
def scaleVec (q : Rat) (v : List Rat) : List Rat := v.map (fun x => q * x)

/-- Sum of squares of a vector. -/
def sumSq (l : List Rat) : Rat := (l.map (fun x => x * x)).sum

/-- Linear combination of the columns of `M` with coefficients `x`, over
an ambient dimension `n`. -/
def matVecCols (M : List (List Rat)) (x : List Rat) (n : Nat) : List Rat :=
  (M.zip x).foldl (fun acc cx => vecAdd acc (scaleVec cx.2 cx.1))
    (List.replicate n 0)

/-- Modelled from the spec: `scipy.optimize.nnls`, the external solver
used by `_regress_tfam`, minimizes the squared residual norm over
componentwise non-negative coefficient vectors and returns the
coefficients together with the residual 2-norm. -/
def IsNNLS (M : List (List Rat)) (c xs : List Rat) (resid : Rat) : Prop :=
  xs.length = M.length ∧ (∀ v ∈ xs, 0 ≤ v) ∧ 0 ≤ resid ∧
  resid * resid = sumSq (vecSub c (matVecCols M xs c.length)) ∧
  ∀ ys, ys.length = M.length → (∀ v ∈ ys, 0 ≤ v) →
    resid * resid ≤ sumSq (vecSub c (matVecCols M ys c.length))

deriving instance DecidableEq for Except

/-! Concrete fixtures for the regression witnesses. -/

/-- Family parameters of a one-read-length, 20-position family. -/
def witParams : FamParams :=
  ⟨20, 1, (0, 3), (-9, 0), [[1, 1, 1]], [[1, 1, 1]],
   [[1, 1, 1, 1, 1, 1, 1, 1, 1]], fun _ => List.range 20, fun _ => 20⟩

/-- A 12-nucleotide ORF at transcript offsets 3..15. -/
def witRow : OrfRow := ⟨"o1", "t", 3, 15, 103, 115, "ATG"⟩

/-- An NNLS stub returning all-zero weights. -/
def zeroNnls : List (List Rat) → List Rat → List Rat × Rat :=
  fun cols _ => (cols.map (fun _ => 0), 0)

/-- The two columns `buildColumns` produces for `witRow` and its abortive
variant under `witParams`. -/
def witCols : List (List Rat) :=
  [[0, 0, 0, 1, 1, 1, 1, 1, 1, 1, 1, 1, 1, 1, 1, 0, 0, 0, 0, 0],
   [0, 0, 0, 1, 1, 1, 0, 0, 0, 0, 0, 0, 0, 0, 0, 0, 0, 0, 0, 0]]

/-! ### Claim C4: the covariance estimate and the Wald statistics -/

/-- The retained design matrix `orf_matrix[:, usable_orfs]` as a Mathlib
matrix over the flattened position-by-read-length axis of size `n`:
column `j` is the retained profile column of candidate `j`. -/
def designMatrixOf (n : Nat) (ret : List (Cand × List Rat × Rat)) :
    Matrix (Fin n) (Fin ret.length) Rat :=
  Matrix.of (fun p j => ((ret.get j).2.1).getD p.val 0)

/-- A one-candidate retained set over a flattened axis of two entries. -/
def retW : List (Cand × List Rat × Rat) :=
  [(⟨witRow, OrfVariant.full⟩, [1, 2], 3)]

/-! ## Theorems -/

theorem pyIdx_le (v : Int) (n : Nat) : pyIdx v n ≤ n := by
  simp only [pyIdx]
  split <;> omega

theorem length_pySliceFrom (v : Int) {α : Type} (l : List α) :
    (pySliceFrom v l).length = l.length - pyIdx v l.length := by
  simp [pySliceFrom]

theorem length_pySliceTo (v : Int) {α : Type} (l : List α) :
    (pySliceTo v l).length = pyIdx v l.length := by
  have := pyIdx_le v l.length
  simp [pySliceTo]
  omega

theorem pyIdx_nonneg_le {v : Int} {n : Nat} (h0 : 0 ≤ v) (hn : v ≤ (n : Int)) :
    pyIdx v n = v.toNat := by
  simp only [pyIdx]
  split <;> omega

theorem pyIdx_neg {v : Int} {n : Nat} (h0 : v < 0) :
    pyIdx v n = ((n : Int) + v).toNat := by
  simp only [pyIdx]
  split <;> omega

/-! Lemmas characterising `stopScan`. -/

theorem stopAt_cons3 (a b c : Char) (rest : List Char) (k : Nat) :
    stopAt (a :: b :: c :: rest) (k + 3) = stopAt rest k := by
  simp [stopAt, List.drop_succ_cons]

theorem stopAt_of_short (l : List Char) (k : Nat) (h : l.length < k + 3) :
    stopAt l k = false := by
  unfold stopAt
  cases hd : l.drop k with
  | nil => rfl
  | cons a t =>
    cases t with
    | nil => rfl
    | cons b t2 =>
      cases t2 with
      | nil => rfl
      | cons c t3 =>
        exfalso
        have hlen : (l.drop k).length = l.length - k := List.length_drop k l
        rw [hd] at hlen
        simp only [List.length_cons] at hlen
        omega

theorem stopScan_none_iff :
    ∀ l : List Char, stopScan l = none ↔ ∀ m : Nat, stopAt l (3 * m) = false
  | [] => by
    constructor
    · intro _ m; exact stopAt_of_short _ _ (by simp)
    · intro _; simp [stopScan]
  | [a] => by
    constructor
    · intro _ m; exact stopAt_of_short _ _ (by simp)
    · intro _; simp [stopScan]
  | [a, b] => by
    constructor
    · intro _ m; exact stopAt_of_short _ _ (by simp)
    · intro _; simp [stopScan]
  | a :: b :: c :: rest => by
    have ih := stopScan_none_iff rest
    constructor
    · intro h m
      simp only [stopScan] at h
      by_cases hs : isStopTriple a b c
      · simp [hs] at h
      · simp only [hs, if_false] at h
        cases hsc : stopScan rest with
        | some e0 => rw [hsc] at h; simp at h
        | none =>
          cases m with
          | zero => simpa [stopAt] using hs
          | succ m =>
            have h3 : 3 * (m + 1) = 3 * m + 3 := by ring
            rw [h3, stopAt_cons3]
            exact (ih.mp hsc) m
    · intro h
      have h0 := h 0
      simp only [Nat.mul_zero, stopAt, List.drop_zero] at h0
      simp only [stopScan, h0, if_false]
      have hrest : stopScan rest = none := by
        apply ih.mpr
        intro m
        have hm := h (m + 1)
        have h3 : 3 * (m + 1) = 3 * m + 3 := by ring
        rwa [h3, stopAt_cons3] at hm
      rw [hrest]
      rfl

theorem stopScan_some :
    ∀ l : List Char, ∀ e : Nat, stopScan l = some e →
      3 ≤ e ∧ e % 3 = 0 ∧ e ≤ l.length ∧ stopAt l (e - 3) = true ∧
        ∀ m : Nat, 3 * m + 3 < e → stopAt l (3 * m) = false
  | [], e => by intro h; simp [stopScan] at h
  | [a], e => by intro h; simp [stopScan] at h
  | [a, b], e => by intro h; simp [stopScan] at h
  | a :: b :: c :: rest, e => by
    intro h
    simp only [stopScan] at h
    by_cases hs : isStopTriple a b c
    · simp only [hs, if_true, Option.some.injEq] at h
      subst h
      refine ⟨le_refl 3, by norm_num, by simp, ?_, ?_⟩
      · simpa [stopAt] using hs
      · intro m hm
        omega
    · rw [if_neg hs] at h
      cases hsc : stopScan rest with
      | none => rw [hsc] at h; simp at h
      | some e0 =>
        rw [hsc] at h
        simp only [Option.map_some', Option.some.injEq] at h
        subst h
        obtain ⟨h3, hmod, hlen, hat, hbefore⟩ := stopScan_some rest e0 hsc
        refine ⟨by omega, by omega, by simp; omega, ?_, ?_⟩
        · have he : e0 + 3 - 3 = e0 - 3 + 3 := by omega
          rw [he, stopAt_cons3]
          exact hat
        · intro m hm
          cases m with
          | zero => simpa [stopAt] using hs
          | succ m =>
            have h3m : 3 * (m + 1) = 3 * m + 3 := by ring
            rw [h3m, stopAt_cons3]
            exact hbefore m (by omega)

theorem stopAt_drop (l : List Char) (i k : Nat) :
    stopAt (l.drop i) k = stopAt l (i + k) := by
  unfold stopAt
  rw [List.drop_drop]

/-- C1: every triple `(i, stop, codon)` returned by `find_all_ORFs` has
`codon = s[i:i+3]` matching the IUPAC expansion of the start-codon set;
`stop = 0` exactly when no in-frame stop codon occurs at or after `i`;
and a nonzero `stop` marks the first in-frame stop codon: `(stop - i)` is
a multiple of 3, `s[stop-3:stop]` is a canonical stop codon and no
in-frame stop codon starts before `stop - 3`. Moreover, on codon set
`{ATG}` and sequence `ATGAAATAG` the result is exactly `[(0, 9, ATG)]`. -/
theorem C1_find_all_ORFs_correct :
    (∀ (codons : List (List Char)) (s : List Char) (i stp : Nat)
        (codon : List Char), (i, stp, codon) ∈ find_all_ORFs codons s →
      codon = (s.drop i).take 3 ∧ startMatches codons codon = true ∧
      (stp = 0 ↔ ∀ j : Nat, i ≤ j → (j - i) % 3 = 0 → stopAt s j = false) ∧
      (stp ≠ 0 →
        i + 3 ≤ stp ∧ (stp - i) % 3 = 0 ∧ stp ≤ s.length ∧
        stopAt s (stp - 3) = true ∧
        ∀ j : Nat, i ≤ j → (j - i) % 3 = 0 → j < stp - 3 →
          stopAt s j = false)) ∧
    find_all_ORFs [['A', 'T', 'G']]
        ['A', 'T', 'G', 'A', 'A', 'A', 'T', 'A', 'G'] =
      [(0, 9, ['A', 'T', 'G'])] := by
  constructor
  · intro codons s i stp codon hmem
    simp only [find_all_ORFs, List.mem_filterMap, List.mem_range] at hmem
    obtain ⟨i0, hi0, hsome⟩ := hmem
    by_cases hm : startMatches codons ((s.drop i0).take 3)
    · rw [if_pos hm] at hsome
      simp only [Option.some.injEq, Prod.mk.injEq] at hsome
      obtain ⟨rfl, hstp, rfl⟩ := hsome
      refine ⟨rfl, hm, ?_⟩
      cases hsc : stopScan (s.drop i0) with
      | none =>
        rw [hsc] at hstp
        subst hstp
        have hnone := (stopScan_none_iff (s.drop i0)).mp hsc
        constructor
        · constructor
          · intro _ j hij hmod
            have hm3 : j = i0 + 3 * ((j - i0) / 3) := by omega
            rw [hm3, ← stopAt_drop]
            exact hnone _
          · intro _; rfl
        · intro hcon; exact absurd rfl hcon
      | some e =>
        rw [hsc] at hstp
        subst hstp
        dsimp only
        obtain ⟨h3, hmod, hlen, hat, hbefore⟩ := stopScan_some _ _ hsc
        have hdlen : (s.drop i0).length = s.length - i0 := List.length_drop i0 s
        constructor
        · constructor
          · intro h0; omega
          · intro hall
            exfalso
            have hj := hall (i0 + (e - 3)) (by omega) (by omega)
            rw [← stopAt_drop] at hj
            rw [hj] at hat
            exact Bool.noConfusion hat
        · intro _
          refine ⟨by omega, by omega, by omega, ?_, ?_⟩
          · have he : e + i0 - 3 = i0 + (e - 3) := by omega
            rw [he, ← stopAt_drop]
            exact hat
          · intro j hij hjmod hjlt
            have hm3 : j = i0 + 3 * ((j - i0) / 3) := by omega
            rw [hm3, ← stopAt_drop]
            apply hbefore
            omega
    · rw [if_neg hm] at hsome
      exact Option.noConfusion hsome
  · decide

/-- Witness for C1 at the concrete example from the claim. -/
theorem C1_find_all_ORFs_witness :
    ((0, 9, ['A', 'T', 'G']) ∈ find_all_ORFs [['A', 'T', 'G']]
        ['A', 'T', 'G', 'A', 'A', 'A', 'T', 'A', 'G']) ∧
    ['A', 'T', 'G'] =
      ((['A', 'T', 'G', 'A', 'A', 'A', 'T', 'A', 'G'].drop 0).take 3) :=
  ⟨by decide,
   (C1_find_all_ORFs_correct.1 [['A', 'T', 'G']]
     ['A', 'T', 'G', 'A', 'A', 'A', 'T', 'A', 'G'] 0 9 ['A', 'T', 'G']
     (by decide)).1⟩

theorem decVal_append_digit (l : List Char) (c : Char) :
    decVal (l ++ [c]) = 10 * decVal l + (c.toNat - 48) := by
  simp [decVal, List.foldl_append]

theorem toNat_digitChar {d : Nat} (h : d < 10) :
    (digitChar d).toNat = 48 + d := by
  interval_cases d <;> rfl

theorem decVal_natDigitsAux :
    ∀ fuel n : Nat, n < fuel → decVal (natDigitsAux fuel n) = n
  | 0, n => by omega
  | fuel + 1, n => by
    intro hn
    unfold natDigitsAux
    by_cases h10 : n < 10
    · rw [if_pos h10]
      simp [decVal, toNat_digitChar h10]
    · rw [if_neg h10]
      rw [decVal_append_digit, decVal_natDigitsAux fuel (n / 10) (by omega),
        toNat_digitChar (by omega : n % 10 < 10)]
      omega

theorem natRepr_injective : Function.Injective natRepr := by
  intro m n h
  have hd : natDigitsAux (m + 1) m = natDigitsAux (n + 1) n := by
    have := congrArg String.data h
    simpa [natRepr] using this
  have hm := decVal_natDigitsAux (m + 1) m (by omega)
  have hn := decVal_natDigitsAux (n + 1) n (by omega)
  rw [hd] at hm
  omega

theorem string_append_left_cancel {s t1 t2 : String}
    (h : s ++ t1 = s ++ t2) : t1 = t2 := by
  have hdata := congrArg String.data h
  rw [String.data_append, String.data_append] at hdata
  have hc := List.append_cancel_left hdata
  cases t1
  cases t2
  exact congrArg String.mk hc

theorem idxOfP_cons_self (p : GPath) (t : List GPath) :
    idxOfP p (p :: t) = 0 := by
  simp [idxOfP]

theorem idxOfP_cons_ne (p x : GPath) (t : List GPath) (h : x ≠ p) :
    idxOfP p (x :: t) = idxOfP p t + 1 := by
  simp [idxOfP, h]

theorem idxOfP_inj (p q : GPath) :
    ∀ l : List GPath, p ∈ l → q ∈ l → idxOfP p l = idxOfP q l → p = q
  | [] => by intro h; exact absurd h (List.not_mem_nil p)
  | x :: t => by
    intro hp hq hidx
    by_cases hxp : x = p
    · by_cases hxq : x = q
      · rw [← hxp, ← hxq]
      · subst hxp
        rw [idxOfP_cons_self, idxOfP_cons_ne q x t hxq] at hidx
        exact absurd hidx (by omega)
    · by_cases hxq : x = q
      · subst hxq
        rw [idxOfP_cons_self, idxOfP_cons_ne p x t hxp] at hidx
        exact absurd hidx (by omega)
      · rw [idxOfP_cons_ne p x t hxp, idxOfP_cons_ne q x t hxq] at hidx
        have hp2 : p ∈ t := by
          cases hp with
          | head => exact absurd rfl hxp
          | tail _ h => exact h
        have hq2 : q ∈ t := by
          cases hq with
          | head => exact absurd rfl hxq
          | tail _ h => exact h
        exact idxOfP_inj p q t hp2 hq2 (by omega)

theorem firstUnnamedPath_eq_head :
    ∀ l : List (GPath × Option Nat),
      firstUnnamedPath l = (unnamedPaths l).head?
  | [] => rfl
  | (p, none) :: rest => rfl
  | (p, some m) :: rest => firstUnnamedPath_eq_head rest

theorem unnamedPaths_markPath (p : GPath) (k : Nat) :
    ∀ l, unnamedPaths (markPath p k l) =
      (unnamedPaths l).filter (fun q => q ≠ p)
  | [] => rfl
  | (q1, q2) :: rest => by
    have ih := unnamedPaths_markPath p k rest
    have hcons : markPath p k ((q1, q2) :: rest) =
        markOne p k (q1, q2) :: markPath p k rest := rfl
    by_cases hq : q1 = p
    · have hmark : markOne p k (q1, q2) = (q1, some k) := by
        simp [markOne, hq]
      rw [hcons, hmark]
      cases q2 with
      | none =>
        show unnamedPaths (markPath p k rest) = _
        rw [ih]
        show _ = List.filter _ (q1 :: unnamedPaths rest)
        rw [List.filter_cons]
        simp [hq]
      | some m =>
        show unnamedPaths (markPath p k rest) = _
        exact ih
    · have hmark : markOne p k (q1, q2) = (q1, q2) := by
        simp [markOne, hq]
      rw [hcons, hmark]
      cases q2 with
      | none =>
        show q1 :: unnamedPaths (markPath p k rest) = _
        rw [ih]
        show _ = List.filter _ (q1 :: unnamedPaths rest)
        rw [List.filter_cons]
        simp [hq]
      | some m =>
        show unnamedPaths (markPath p k rest) = _
        exact ih

theorem mem_dedupF {α : Type} [DecidableEq α] (a : α) :
    ∀ l : List α, a ∈ dedupF l ↔ a ∈ l
  | [] => Iff.rfl
  | x :: t => by
    simp only [dedupF, List.mem_cons, List.mem_filter, mem_dedupF a t,
      decide_eq_true_eq]
    by_cases hax : a = x
    · simp [hax]
    · simp [hax]

theorem filter_swap {α : Type} (p q : α → Bool) (l : List α) :
    (l.filter p).filter q = (l.filter q).filter p := by
  rw [List.filter_filter, List.filter_filter]
  apply List.filter_congr
  intro a _
  exact Bool.and_comm (q a) (p a)

theorem dedupF_filter {α : Type} [DecidableEq α] (p : α → Bool) :
    ∀ l : List α, (dedupF l).filter p = dedupF (l.filter p)
  | [] => rfl
  | x :: t => by
    cases hx : p x with
    | true =>
      simp only [dedupF, List.filter_cons, hx, if_true]
      rw [filter_swap, dedupF_filter p t]
    | false =>
      simp only [dedupF, List.filter_cons, hx, Bool.false_eq_true, if_false]
      rw [filter_swap, dedupF_filter p t]
      apply List.filter_eq_self.mpr
      intro b hb
      have hbt : b ∈ t.filter p := (mem_dedupF b _).mp hb
      rw [List.mem_filter] at hbt
      have hbx : b ≠ x := fun hbx2 => by
        rw [hbx2, hx] at hbt
        exact Bool.noConfusion hbt.2
      simpa using hbx

theorem mem_unnamedPaths_of_mem {l : List (GPath × Option Nat)}
    {q : GPath × Option Nat} (hq : q ∈ l) (hn : q.2 = none) :
    q.1 ∈ unnamedPaths l := by
  induction l with
  | nil => exact absurd hq (List.not_mem_nil q)
  | cons x rest ih =>
    obtain ⟨x1, x2⟩ := x
    cases hq with
    | head =>
      have hx2 : x2 = none := hn
      subst hx2
      exact List.mem_cons_self _ _
    | tail _ hmem =>
      cases x2 with
      | none => exact List.mem_cons_of_mem _ (ih hmem)
      | some m => exact ih hmem

theorem namedSep_markPath (p : GPath) (k : Nat)
    (l : List (GPath × Option Nat)) (h : NamedSep l) :
    NamedSep (markPath p k l) := by
  intro q hq hsome
  rw [unnamedPaths_markPath]
  intro hmem
  rw [List.mem_filter] at hmem
  obtain ⟨hmem1, hne⟩ := hmem
  have hne2 : q.1 ≠ p := by simpa using hne
  rw [markPath, List.mem_map] at hq
  obtain ⟨q0, hq0, rfl⟩ := hq
  by_cases h0 : q0.1 = p
  · exact hne2 (by simp [markOne, h0])
  · rw [markOne, if_neg h0] at hsome hmem1
    exact h q0 hq0 hsome hmem1

theorem countUnnamed_markPath_le (p : GPath) (k : Nat) :
    ∀ l, countUnnamed (markPath p k l) ≤ countUnnamed l := by
  intro l
  unfold countUnnamed markPath
  rw [List.countP_map]
  apply List.countP_mono_left
  intro q _ hq
  by_cases h : q.1 = p
  · simp [markOne, h] at hq
  · simpa [markOne, h] using hq

theorem countUnnamed_markPath_lt (p : GPath) (k : Nat) :
    ∀ l, firstUnnamedPath l = some p →
      countUnnamed (markPath p k l) < countUnnamed l
  | [] => by intro h; exact Option.noConfusion h
  | (q1, q2) :: rest => by
    intro h
    have hcons : markPath p k ((q1, q2) :: rest) =
        markOne p k (q1, q2) :: markPath p k rest := rfl
    rw [hcons]
    unfold countUnnamed
    rw [List.countP_cons, List.countP_cons]
    cases q2 with
    | none =>
      have hq1 : q1 = p := by simpa [firstUnnamedPath] using h
      subst hq1
      have hle := countUnnamed_markPath_le q1 k rest
      unfold countUnnamed at hle
      have h1 : (markOne q1 k (q1, none)).2.isNone = false := by
        simp [markOne]
      have h2 : (((q1, none) : GPath × Option Nat)).2.isNone = true := rfl
      unfold markPath at hle ⊢
      simp only [h1, h2, Bool.false_eq_true, if_false, if_true]
      omega
    | some m =>
      have hrest := countUnnamed_markPath_lt p k rest
        (by simpa [firstUnnamedPath] using h)
      unfold countUnnamed at hrest
      have h1 : (markOne p k (q1, some m)).2.isNone = false := by
        by_cases hq : q1 = p <;> simp [markOne, hq]
      have h2 : (((q1, some m) : GPath × Option Nat)).2.isNone = false := rfl
      unfold markPath at hrest ⊢
      simp only [h1, h2, Bool.false_eq_true, if_false]
      omega

theorem countUnnamed_eq_zero_mem {l : List (GPath × Option Nat)}
    (h0 : countUnnamed l = 0) : ∀ q ∈ l, q.2.isSome = true := by
  intro q hq
  cases hq2 : q.2 with
  | some m => rfl
  | none =>
    exfalso
    unfold countUnnamed at h0
    rw [List.countP_eq_zero] at h0
    have := h0 q hq
    simp [hq2] at this

theorem map_named_eq_self (l : List (GPath × Option Nat))
    (f : GPath × Option Nat → GPath × Option Nat)
    (hf : ∀ q, q.2.isSome = true → f q = q)
    (h0 : countUnnamed l = 0) : l.map f = l := by
  conv_rhs => rw [← List.map_id l]
  apply List.map_congr_left
  intro q hq
  exact hf q (countUnnamed_eq_zero_mem h0 q hq)

theorem length_unnamedPaths :
    ∀ l : List (GPath × Option Nat),
      (unnamedPaths l).length = countUnnamed l
  | [] => rfl
  | (q1, none) :: rest => by
    have ih := length_unnamedPaths rest
    unfold countUnnamed at ih ⊢
    show (unnamedPaths rest).length + 1 = _
    rw [List.countP_cons]
    simp
    omega
  | (q1, some m) :: rest => by
    have ih := length_unnamedPaths rest
    unfold countUnnamed at ih ⊢
    show (unnamedPaths rest).length = _
    rw [List.countP_cons]
    simp
    omega

/-- Closed form of the naming loop: a named row is left alone, and an
unnamed row with path `p` receives the class index `k` plus the rank of
`p` among the distinct unnamed paths in order of first encounter. -/
theorem nameLoopAux_spec :
    ∀ (fuel : Nat) (l : List (GPath × Option Nat)) (k : Nat),
      countUnnamed l ≤ fuel → NamedSep l →
      nameLoopAux fuel l k =
        l.map (fun q =>
          (q.1, match q.2 with
            | some m => some m
            | none => some (k + idxOfP q.1 (dedupF (unnamedPaths l)))))
  | 0, l, k => by
    intro hfuel _
    have h0 : countUnnamed l = 0 := Nat.le_zero.mp hfuel
    unfold nameLoopAux
    symm
    apply map_named_eq_self l _ _ h0
    intro q hq
    cases hq2 : q.2 with
    | none => rw [hq2] at hq; exact Bool.noConfusion hq
    | some m =>
      show (q.1, some m) = q
      rw [← hq2]
  | fuel + 1, l, k => by
    intro hfuel hsep
    unfold nameLoopAux
    cases hf : firstUnnamedPath l with
    | none =>
      have hempty : unnamedPaths l = [] := by
        rw [firstUnnamedPath_eq_head] at hf
        exact List.head?_eq_none_iff.mp hf
      have h0 : countUnnamed l = 0 := by
        rw [← length_unnamedPaths, hempty]
        rfl
      symm
      apply map_named_eq_self l _ _ h0
      intro q hq
      cases hq2 : q.2 with
      | none => rw [hq2] at hq; exact Bool.noConfusion hq
      | some m =>
        show (q.1, some m) = q
        rw [← hq2]
    | some p =>
      have hp_head : (unnamedPaths l).head? = some p := by
        rw [← firstUnnamedPath_eq_head]; exact hf
      obtain ⟨t, ht⟩ : ∃ t, unnamedPaths l = p :: t := by
        cases hu : unnamedPaths l with
        | nil => rw [hu] at hp_head; exact Option.noConfusion hp_head
        | cons a t =>
          rw [hu] at hp_head
          simp only [List.head?_cons, Option.some.injEq] at hp_head
          exact ⟨t, by rw [hp_head]⟩
      have hmarked : unnamedPaths (markPath p k l) =
          t.filter (fun q => q ≠ p) := by
        rw [unnamedPaths_markPath, ht, List.filter_cons]
        simp
      have hdedup : dedupF (unnamedPaths l) =
          p :: dedupF (unnamedPaths (markPath p k l)) := by
        rw [ht, hmarked]
        show p :: (dedupF t).filter (fun y => y ≠ p) = _
        rw [dedupF_filter]
      have hlt := countUnnamed_markPath_lt p k l hf
      have ih := nameLoopAux_spec fuel (markPath p k l) (k + 1)
        (by omega) (namedSep_markPath p k l hsep)
      dsimp only
      rw [ih, markPath, List.map_map]
      rw [markPath] at hdedup
      apply List.map_congr_left
      intro q hq
      simp only [Function.comp_apply]
      by_cases h0 : q.1 = p
      · rw [markOne, if_pos h0]
        cases hq2 : q.2 with
        | some m =>
          exfalso
          apply hsep q hq (by rw [hq2]; rfl)
          rw [ht, h0]
          exact List.mem_cons_self p t
        | none =>
          dsimp only
          rw [hdedup, h0, idxOfP_cons_self]
          rfl
      · rw [markOne, if_neg h0]
        cases hq2 : q.2 with
        | some m => rfl
        | none =>
          dsimp only
          rw [hdedup, idxOfP_cons_ne q.1 p _ (Ne.symm h0)]
          simp only [Prod.mk.injEq, Option.some.injEq, true_and]
          omega

theorem nameLoop_spec (l : List (GPath × Option Nat)) (k : Nat)
    (hsep : NamedSep l) :
    nameLoop l k =
      l.map (fun q =>
        (q.1, match q.2 with
          | some m => some m
          | none => some (k + idxOfP q.1 (dedupF (unnamedPaths l))))) :=
  nameLoopAux_spec (countUnnamed l) l k (Nat.le_refl _) hsep

/-! Helpers to read entries of mapped lists positionally. -/

theorem getD_map_lt {α β : Type} (f : α → β) :
    ∀ (l : List α) (i : Nat), i < l.length → ∀ (d : β) (d0 : α),
      (l.map f).getD i d = f (l.getD i d0)
  | [], i => by intro h; exact absurd h (by simp)
  | x :: t, 0 => by intro _ d d0; rfl
  | x :: t, i + 1 => by
    intro h d d0
    show (t.map f).getD i d = f (t.getD i d0)
    exact getD_map_lt f t i (by simpa using h) d d0

theorem length_markPath (p : GPath) (k : Nat)
    (l : List (GPath × Option Nat)) : (markPath p k l).length = l.length := by
  simp [markPath]

theorem length_nameLoopAux :
    ∀ (fuel : Nat) (l : List (GPath × Option Nat)) (k : Nat),
      (nameLoopAux fuel l k).length = l.length
  | 0, l, k => rfl
  | fuel + 1, l, k => by
    unfold nameLoopAux
    cases h : firstUnnamedPath l with
    | none => rfl
    | some p =>
      rw [length_nameLoopAux fuel (markPath p k l) (k + 1), length_markPath]

theorem getD_mem_lt {α : Type} (l : List α) (i : Nat) (d : α)
    (h : i < l.length) : l.getD i d ∈ l := by
  rw [List.getD_eq_getElem l d h]
  exact List.getElem_mem h

theorem unnamedPaths_init (ps : List GPath) :
    unnamedPaths (ps.map (fun p => (p, (none : Option Nat)))) = ps := by
  induction ps with
  | nil => rfl
  | cons p t ih =>
    show p :: unnamedPaths (t.map (fun p => (p, (none : Option Nat)))) = _
    rw [ih]

theorem namedSep_init (ps : List GPath) :
    NamedSep (ps.map (fun p => (p, (none : Option Nat)))) := by
  intro q hq hsome
  rw [List.mem_map] at hq
  obtain ⟨p, _, rfl⟩ := hq
  exact Bool.noConfusion hsome

theorem length_identify_group (tfam : String) (g a : Nat)
    (ps : List GPath) : (identify_group tfam g a ps).length = ps.length := by
  by_cases h1 : ps.length = 1
  · rw [identify_group, if_pos h1]
    simp [h1]
  · rw [identify_group, if_neg h1]
    by_cases h2 : ps.all (fun p => p == ps.headI)
    · rw [if_pos h2, List.length_map]
    · rw [if_neg h2, List.length_map, nameLoop, length_nameLoopAux,
        List.length_map]

theorem identify_group_loop_getD (tfam : String) (g a : Nat)
    (ps : List GPath) (h1 : ps.length ≠ 1)
    (h2 : ¬ ps.all (fun p => p == ps.headI) = true)
    (i : Nat) (hi : i < ps.length) :
    (identify_group tfam g a ps).getD i "" =
      name_ORF tfam g a ++ "_" ++
        natRepr (idxOfP (ps.getD i []) (dedupF ps)) := by
  rw [identify_group, if_neg h1, if_neg h2]
  have hlen : (nameLoop (ps.map (fun p => (p, (none : Option Nat)))) 0).length
      = ps.length := by
    rw [nameLoop, length_nameLoopAux, List.length_map]
  rw [getD_map_lt _ _ i (by rw [hlen]; exact hi) "" ([], none)]
  rw [nameLoop, nameLoopAux_spec _ _ 0 (Nat.le_refl _) (namedSep_init ps)]
  rw [getD_map_lt _ _ i (by rw [List.length_map]; exact hi) ([], none)
    (([], none) : GPath × Option Nat)]
  rw [getD_map_lt _ _ i hi ([], none) []]
  rw [unnamedPaths_init]
  show name_ORF tfam g a ++ "_" ++
      natRepr (0 + idxOfP (ps.getD i []) (dedupF ps)) = _
  rw [Nat.zero_add]

/-- C2: within a `(gcoord, AAlen)` group of a transcript family, naming
is a function of the realized genomic path: rows with identical paths get
identical names; rows with differing paths get distinct names of the form
`family_gcoord_AAlenaa_k`, where `k` is the zero-based index of the
identity class of the path in order of first encounter over the fixed
input order. -/
theorem C2_identify_group_naming (tfam : String) (gcoord AAlen : Nat)
    (ps : List GPath) (i j : Nat) (hi : i < ps.length)
    (hj : j < ps.length) :
    (identify_group tfam gcoord AAlen ps).length = ps.length ∧
    (ps.getD i [] = ps.getD j [] →
      (identify_group tfam gcoord AAlen ps).getD i "" =
        (identify_group tfam gcoord AAlen ps).getD j "") ∧
    (ps.getD i [] ≠ ps.getD j [] →
      (identify_group tfam gcoord AAlen ps).getD i "" =
        name_ORF tfam gcoord AAlen ++ "_" ++
          natRepr (idxOfP (ps.getD i []) (dedupF ps)) ∧
      (identify_group tfam gcoord AAlen ps).getD j "" =
        name_ORF tfam gcoord AAlen ++ "_" ++
          natRepr (idxOfP (ps.getD j []) (dedupF ps)) ∧
      (identify_group tfam gcoord AAlen ps).getD i "" ≠
        (identify_group tfam gcoord AAlen ps).getD j "") := by
  refine ⟨length_identify_group tfam gcoord AAlen ps, ?_, ?_⟩
  · intro heq
    by_cases h1 : ps.length = 1
    · have hij : i = 0 ∧ j = 0 := by omega
      rw [hij.1, hij.2]
    · by_cases h2 : ps.all (fun p => p == ps.headI)
      · rw [identify_group, if_neg h1, if_pos h2]
        rw [getD_map_lt _ ps i hi "" [], getD_map_lt _ ps j hj "" []]
      · rw [identify_group_loop_getD tfam gcoord AAlen ps h1 h2 i hi,
          identify_group_loop_getD tfam gcoord AAlen ps h1 h2 j hj, heq]
  · intro hne
    have h1 : ps.length ≠ 1 := by
      intro h1
      apply hne
      have hij : i = 0 ∧ j = 0 := by omega
      rw [hij.1, hij.2]
    have h2 : ¬ ps.all (fun p => p == ps.headI) = true := by
      intro h2
      apply hne
      have hall := List.all_eq_true.mp h2
      have hieq := beq_iff_eq.mp (hall _ (getD_mem_lt ps i [] hi))
      have hjeq := beq_iff_eq.mp (hall _ (getD_mem_lt ps j [] hj))
      rw [hieq, hjeq]
    refine ⟨identify_group_loop_getD tfam gcoord AAlen ps h1 h2 i hi,
      identify_group_loop_getD tfam gcoord AAlen ps h1 h2 j hj, ?_⟩
    rw [identify_group_loop_getD tfam gcoord AAlen ps h1 h2 i hi,
      identify_group_loop_getD tfam gcoord AAlen ps h1 h2 j hj]
    intro hcontra
    have hr := string_append_left_cancel hcontra
    have hk := natRepr_injective hr
    exact hne (idxOfP_inj _ _ (dedupF ps)
      ((mem_dedupF _ _).mpr (getD_mem_lt ps i [] hi))
      ((mem_dedupF _ _).mpr (getD_mem_lt ps j [] hj)) hk)

/-- Witness for C2: two rows with genomic start 1000 and AAlen 50 whose
realized paths differ receive the distinct names `fam1_1000_50aa_0` and
`fam1_1000_50aa_1`. -/
theorem C2_identify_group_naming_witness :
    ([[0, 1, 2], [0, 1, 9]].getD 0 [] ≠ [[0, 1, 2], [0, 1, 9]].getD 1 []) ∧
    (identify_group "fam1" 1000 50 [[0, 1, 2], [0, 1, 9]]).getD 0 "" ≠
      (identify_group "fam1" 1000 50 [[0, 1, 2], [0, 1, 9]]).getD 1 "" ∧
    identify_group "fam1" 1000 50 [[0, 1, 2], [0, 1, 9]] =
      ["fam1_1000_50aa_0", "fam1_1000_50aa_1"] :=
  ⟨by decide,
   ((C2_identify_group_naming "fam1" 1000 50 [[0, 1, 2], [0, 1, 9]] 0 1
      (by decide) (by decide)).2.2 (by decide)).2.2,
   by decide⟩

/-- Counterexample for C3 as stated: on the forward strand the claim
promises last-base coordinate plus 2, but for the contiguous forward
transcript covering positions 0..8 with stop offset 9 the code yields
8 + 2 - 1 = 9, not 8 + 2 = 10. -/
theorem C3_gstop_counterexample :
    gstopsOf true [0, 1, 2, 3, 4, 5, 6, 7, 8]
        [(0, 9, ['A', 'T', 'G'])] = [9] ∧
    get_genomic_coordinate [0, 1, 2, 3, 4, 5, 6, 7, 8] (9 - 1) = 8 ∧
    (9 : Int) ≠ 8 + 2 := by
  refine ⟨by decide, by decide, by decide⟩

/-- C3 (amended): for every enumerated ORF with a nonzero stop, the
derived genomic stop equals the genomic coordinate of the last base of
the stop codon plus 1 on the forward strand, and minus 1 on the reverse
strand, preserving half-open interval semantics on both strands. -/
theorem C3_gstop_halfopen (strand_plus : Bool) (positions : List Int)
    (orfs : List (Nat × Nat × List Char)) (n : Nat) (hn : n < orfs.length)
    (hstop : 0 < (orfs.getD n (0, 0, [])).2.1) :
    (gstopsOf strand_plus positions orfs).getD n 0 =
      get_genomic_coordinate positions ((orfs.getD n (0, 0, [])).2.1 - 1) +
        (if strand_plus then 1 else -1) := by
  rw [gstopsOf, getD_map_lt _ orfs n hn 0 (0, 0, []), if_pos hstop]
  cases strand_plus with
  | true =>
    simp only [if_true]
    ring
  | false =>
    simp only [Bool.false_eq_true, if_false]
    ring

/-- Witness for C3 on both strands at concrete transcripts. -/
theorem C3_gstop_halfopen_witness :
    ((0 : Nat) < ([((0 : Nat), (9 : Nat), ['A', 'T', 'G'])].getD 0
        (0, 0, [])).2.1) ∧
    (gstopsOf true [0, 1, 2, 3, 4, 5, 6, 7, 8]
        [(0, 9, ['A', 'T', 'G'])]).getD 0 0 =
      get_genomic_coordinate [0, 1, 2, 3, 4, 5, 6, 7, 8] (9 - 1) + 1 ∧
    (gstopsOf false [10, 9, 8, 7, 6, 5, 4, 3, 2]
        [(0, 9, ['A', 'T', 'G'])]).getD 0 0 =
      get_genomic_coordinate [10, 9, 8, 7, 6, 5, 4, 3, 2] (9 - 1) + (-1) :=
  ⟨by decide,
   C3_gstop_halfopen true [0, 1, 2, 3, 4, 5, 6, 7, 8]
     [(0, 9, ['A', 'T', 'G'])] 0 (by decide) (by decide),
   C3_gstop_halfopen false [10, 9, 8, 7, 6, 5, 4, 3, 2]
     [(0, 9, ['A', 'T', 'G'])] 0 (by decide) (by decide)⟩

/-! Shape lemmas for the stitched profiles. -/

theorem length_hstack2 (A B : List (List Rat)) :
    (hstack2 A B).length = min A.length B.length :=
  List.length_zipWith _ A B

theorem hstack2_row_length {A B : List (List Rat)} {la lb : Nat}
    (hA : ∀ row ∈ A, row.length = la) (hB : ∀ row ∈ B, row.length = lb) :
    ∀ row ∈ hstack2 A B, row.length = la + lb := by
  intro row hrow
  rw [hstack2, List.mem_iff_getElem] at hrow
  obtain ⟨i, hi, hrow⟩ := hrow
  rw [List.getElem_zipWith] at hrow
  subst hrow
  have hiA : i < A.length := by
    rw [List.length_zipWith] at hi; omega
  have hiB : i < B.length := by
    rw [List.length_zipWith] at hi; omega
  rw [List.length_append, hA _ (List.getElem_mem hiA),
    hB _ (List.getElem_mem hiB)]

theorem length_tileCols (A : List (List Rat)) (m : Nat) :
    (tileCols A m).length = A.length := by
  simp [tileCols]

theorem tileCols_row_length {A : List (List Rat)} {la : Nat} (m : Nat)
    (hA : ∀ row ∈ A, row.length = la) :
    ∀ row ∈ tileCols A m, row.length = m * la := by
  intro row hrow
  rw [tileCols, List.mem_map] at hrow
  obtain ⟨r, hr, rfl⟩ := hrow
  rw [List.length_flatten, List.map_replicate, List.sum_replicate,
    hA r hr, smul_eq_mul]

theorem map_slice_from_row_length {A : List (List Rat)} {la : Nat}
    (v : Int) (hA : ∀ row ∈ A, row.length = la) :
    ∀ row ∈ A.map (pySliceFrom v), row.length = la - pyIdx v la := by
  intro row hrow
  rw [List.mem_map] at hrow
  obtain ⟨r, hr, rfl⟩ := hrow
  rw [length_pySliceFrom, hA r hr]

theorem map_slice_to_row_length {A : List (List Rat)} {la : Nat}
    (v : Int) (hA : ∀ row ∈ A, row.length = la) :
    ∀ row ∈ A.map (pySliceTo v), row.length = pyIdx v la := by
  intro row hrow
  rw [List.mem_map] at hrow
  obtain ⟨r, hr, rfl⟩ := hrow
  rw [length_pySliceTo, hA r hr]

/-- Counterexample for C7 as stated: with start window (0, 6) and stop
window (-9, 3), an ORF of 15 nucleotides is in the long regime
(15 ≥ 6 - (-9)) and the code tiles the body template
(15 - 6 + (-9)) / 3 = 0 times, not (15 - 6) / 3 = 3 times; with one read
length the profile row accordingly has 6 + 0 + 12 = 18 columns, not
6 + 9 + 12 = 27. -/
theorem C7_tiles_counterexample :
    numBodyTiles (0, 6) (-9, 3) 15 = 0 ∧
    (((15 - 6 : Int)) / 3).toNat = 3 ∧
    (0 : Nat) ≠ 3 ∧
    (orf_profile (0, 6) (-9, 3) [[1, 1, 1, 1, 1, 1]] [[1, 1, 1]]
        [[1, 1, 1, 1, 1, 1, 1, 1, 1, 1, 1, 1]] 15).map List.length =
      [18] ∧
    (18 : Nat) ≠ 6 + 3 * 3 + 12 := by
  refine ⟨by decide, by decide, by decide, by decide, by decide⟩

/-- C7 (amended): in the long-ORF regime
(`orflen ≥ startnt[1] - stopnt[0]`, the combined modeled extent), the
number of tiled copies of the single-codon body template equals
`(orflen - (startnt[1] - stopnt[0])) / 3` (integer floor), and each
profile row accordingly has `startlen + 3*tiles + stoplen` columns. -/
theorem C7_body_tiles (startnt stopnt : Int × Int) (orflen : Nat)
    (startprof cdsprof stopprof : List (List Rat))
    (hregime : startnt.2 - stopnt.1 ≤ (orflen : Int))
    (hSPr : ∀ row ∈ startprof, row.length = (startnt.2 - startnt.1).toNat)
    (hCPr : ∀ row ∈ cdsprof, row.length = 3)
    (hTPr : ∀ row ∈ stopprof, row.length = (stopnt.2 - stopnt.1).toNat) :
    (numBodyTiles startnt stopnt orflen : Int) =
      ((orflen : Int) - (startnt.2 - stopnt.1)) / 3 ∧
    ∀ row ∈ orf_profile startnt stopnt startprof cdsprof stopprof orflen,
      row.length = (startnt.2 - startnt.1).toNat +
        3 * numBodyTiles startnt stopnt orflen +
        (stopnt.2 - stopnt.1).toNat := by
  constructor
  · rw [numBodyTiles]
    omega
  · intro row hrow
    rw [orf_profile, if_pos hregime] at hrow
    have hmid := hstack2_row_length
      (tileCols_row_length (numBodyTiles startnt stopnt orflen) hCPr) hTPr
    have := hstack2_row_length hSPr hmid row hrow
    omega

/-- Witness for C7 at a concrete metagene and ORF length. -/
theorem C7_body_tiles_witness :
    ((6 : Int) - (-9) ≤ (18 : Nat)) ∧
    (numBodyTiles (0, 6) (-9, 3) 18 : Int) = ((18 : Int) - (6 - (-9))) / 3 ∧
    ∀ row ∈ orf_profile (0, 6) (-9, 3) [[1, 1, 1, 1, 1, 1]] [[1, 1, 1]]
        [[1, 1, 1, 1, 1, 1, 1, 1, 1, 1, 1, 1]] 18,
      row.length = ((6 : Int) - 0).toNat + 3 * numBodyTiles (0, 6) (-9, 3) 18 +
        ((3 : Int) - (-9)).toNat :=
  ⟨by decide,
   (C7_body_tiles (0, 6) (-9, 3) 18 [[1, 1, 1, 1, 1, 1]] [[1, 1, 1]]
     [[1, 1, 1, 1, 1, 1, 1, 1, 1, 1, 1, 1]] (by decide) (by decide)
     (by decide) (by decide)).1,
   (C7_body_tiles (0, 6) (-9, 3) 18 [[1, 1, 1, 1, 1, 1]] [[1, 1, 1]]
     [[1, 1, 1, 1, 1, 1, 1, 1, 1, 1, 1, 1]] (by decide) (by decide)
     (by decide) (by decide)).2⟩

/-- Counterexample for C9 as stated: with `startnt = (0, 0)` (allowed by
the stated hypotheses `startnt[0] ≤ 0 ≤ startnt[1]`), `stopnt = (-9, 0)`
and `orflen = 3`, the very-short regime slices `startprof[:, :3]` out of
a zero-column start template, so the profile has 0 columns instead of
`orflen + stopnt[1] - startnt[0] = 3`. -/
theorem C9_shape_counterexample :
    ((0 : Int) ≤ 0 ∧ (0 : Int) ≤ 0 ∧ (-9 : Int) ≤ -9 ∧ (0 : Int) ≤ 0 ∧
      (0 : Int) % 3 = 0 ∧ (3 : Nat) % 3 = 0 ∧ 0 < (3 : Nat)) ∧
    ([[]] : List (List Rat)).length = 1 ∧
    (∀ row ∈ ([[]] : List (List Rat)), row.length = ((0 : Int) - 0).toNat) ∧
    (∀ row ∈ ([[1, 1, 1]] : List (List Rat)), row.length = 3) ∧
    (∀ row ∈ ([[1, 1, 1, 1, 1, 1, 1, 1, 1]] : List (List Rat)),
      row.length = ((0 : Int) - (-9)).toNat) ∧
    ¬ (∀ row ∈ orf_profile (0, 0) (-9, 0) [[]] [[1, 1, 1]]
          [[1, 1, 1, 1, 1, 1, 1, 1, 1]] 3,
        (row.length : Int) = (3 : Int) + 0 - 0) := by
  refine ⟨by decide, by decide, by decide, by decide, by decide, by decide⟩

/-- C9 (amended): under the metagene well-formedness conditions — with
the additional requirement `3 ≤ startnt[1]`, forced by the very-short
regime — the synthesized profile has exactly `L` rows and exactly
`orflen + stopnt[1] - startnt[0]` columns in all four length regimes. -/
theorem C9_orf_profile_shape (startnt stopnt : Int × Int) (L : Nat)
    (startprof cdsprof stopprof : List (List Rat)) (orflen : Nat)
    (hs1 : startnt.1 ≤ 0) (hs2 : 3 ≤ startnt.2)
    (ht1 : stopnt.1 ≤ -9) (ht2 : 0 ≤ stopnt.2)
    (hs1m : startnt.1 % 3 = 0) (hs2m : startnt.2 % 3 = 0)
    (ht1m : stopnt.1 % 3 = 0) (ht2m : stopnt.2 % 3 = 0)
    (hlen3 : orflen % 3 = 0) (hpos : 0 < orflen)
    (hSP : startprof.length = L) (hCP : cdsprof.length = L)
    (hTP : stopprof.length = L)
    (hSPr : ∀ row ∈ startprof, row.length = (startnt.2 - startnt.1).toNat)
    (hCPr : ∀ row ∈ cdsprof, row.length = 3)
    (hTPr : ∀ row ∈ stopprof, row.length = (stopnt.2 - stopnt.1).toNat) :
    (orf_profile startnt stopnt startprof cdsprof stopprof orflen).length
      = L ∧
    ∀ row ∈ orf_profile startnt stopnt startprof cdsprof stopprof orflen,
      (row.length : Int) = (orflen : Int) + stopnt.2 - startnt.1 := by
  by_cases hr1 : startnt.2 - stopnt.1 ≤ (orflen : Int)
  · rw [orf_profile, if_pos hr1]
    constructor
    · rw [length_hstack2, length_hstack2, length_tileCols, hSP, hCP, hTP]
      omega
    · intro row hrow
      have hmid := hstack2_row_length
        (tileCols_row_length (numBodyTiles startnt stopnt orflen) hCPr) hTPr
      have hlen := hstack2_row_length hSPr hmid row hrow
      simp only [numBodyTiles] at hlen
      omega
  · rw [orf_profile, if_neg hr1]
    by_cases hr2 : startnt.2 + 9 ≤ (orflen : Int)
    · rw [if_pos hr2]
      constructor
      · rw [length_hstack2, List.length_map, hSP, hTP]
        omega
      · intro row hrow
        have hB := map_slice_from_row_length
          (startnt.2 - (orflen : Int) - stopnt.2) hTPr
        have hlen := hstack2_row_length hSPr hB row hrow
        rw [pyIdx_neg (by omega)] at hlen
        omega
    · rw [if_neg hr2]
      by_cases hr3 : 9 ≤ (orflen : Int)
      · rw [if_pos hr3]
        constructor
        · rw [length_hstack2, List.length_map, List.length_map, hSP, hTP]
          omega
        · intro row hrow
          have hA := map_slice_to_row_length
            ((orflen : Int) - 9 - startnt.1) hSPr
          have hB := map_slice_from_row_length (-9 - stopnt.2) hTPr
          have hlen := hstack2_row_length hA hB row hrow
          rw [pyIdx_nonneg_le (by omega) (by omega),
            pyIdx_neg (by omega)] at hlen
          omega
      · rw [if_neg hr3]
        constructor
        · rw [length_hstack2, List.length_map, List.length_map, hSP, hTP]
          omega
        · intro row hrow
          have hA := map_slice_to_row_length (3 - startnt.1) hSPr
          have hB := map_slice_from_row_length
            (3 - (orflen : Int) - stopnt.1) hTPr
          have hlen := hstack2_row_length hA hB row hrow
          rw [pyIdx_nonneg_le (by omega) (by omega),
            pyIdx_nonneg_le (by omega) (by omega)] at hlen
          omega

/-- Witness for C9 at a concrete metagene, in the very-short regime. -/
theorem C9_orf_profile_shape_witness :
    (orf_profile (0, 6) (-9, 3) [[1, 1, 1, 1, 1, 1]] [[1, 1, 1]]
        [[1, 1, 1, 1, 1, 1, 1, 1, 1, 1, 1, 1]] 3).length = 1 ∧
    ∀ row ∈ orf_profile (0, 6) (-9, 3) [[1, 1, 1, 1, 1, 1]] [[1, 1, 1]]
        [[1, 1, 1, 1, 1, 1, 1, 1, 1, 1, 1, 1]] 3,
      (row.length : Int) = (3 : Int) + 3 - 0 :=
  C9_orf_profile_shape (0, 6) (-9, 3) 1 [[1, 1, 1, 1, 1, 1]] [[1, 1, 1]]
    [[1, 1, 1, 1, 1, 1, 1, 1, 1, 1, 1, 1]] 3 (by decide) (by decide)
    (by decide) (by decide) (by decide) (by decide) (by decide) (by decide)
    (by decide) (by decide) (by decide) (by decide) (by decide) (by decide)
    (by decide) (by decide)

/-! ### Claim C10: the catalog query shields the start-window index -/

/-- C10: the chromosome-level catalog query (`tcoord > 0`) unconditionally
excludes every ORF whose start codon is the very first codon of its
transcript, irrespective of reads or of the start-count pre-filter, so
the start-window lower bound `tcoord - 1` is never negative and the
Python slice bound never wraps around from the end. -/
theorem C10_query_excludes_tcoord_zero (catalog : List CatRow)
    (chrom_to_do : String) (r : CatRow) :
    (r ∈ catalog → r.tcoord = 0 →
      r ∉ regressChromQuery catalog chrom_to_do) ∧
    (r ∈ regressChromQuery catalog chrom_to_do →
      0 < r.tcoord ∧ (0 : Int) ≤ (r.tcoord : Int) - 1 ∧
      ∀ n : Nat, pyIdx ((r.tcoord : Int) - 1) n = min (r.tcoord - 1) n) := by
  constructor
  · intro _ h0 hmem
    rw [regressChromQuery, List.mem_filter] at hmem
    have := hmem.2
    rw [h0] at this
    simp at this
  · intro hmem
    rw [regressChromQuery, List.mem_filter] at hmem
    have hpos : 0 < r.tcoord := by
      have := hmem.2
      simp only [Bool.and_eq_true, decide_eq_true_eq] at this
      exact this.2
    refine ⟨hpos, by omega, ?_⟩
    intro n
    simp only [pyIdx]
    rw [if_neg (by omega)]
    congr 1
    omega

/-- Witness for C10: a catalog with one `tcoord = 0` row (excluded) and
one `tcoord = 5` row (kept, with a well-behaved window index). -/
theorem C10_query_excludes_tcoord_zero_witness :
    ((⟨"o0", "f", "t", 0, 9, "chr1", 1, 10⟩ : CatRow) ∈
        ([⟨"o0", "f", "t", 0, 9, "chr1", 1, 10⟩,
          ⟨"o1", "f", "t", 5, 14, "chr1", 6, 15⟩] : List CatRow) →
      (⟨"o0", "f", "t", 0, 9, "chr1", 1, 10⟩ : CatRow).tcoord = 0 →
      (⟨"o0", "f", "t", 0, 9, "chr1", 1, 10⟩ : CatRow) ∉
        regressChromQuery
          [⟨"o0", "f", "t", 0, 9, "chr1", 1, 10⟩,
           ⟨"o1", "f", "t", 5, 14, "chr1", 6, 15⟩] "chr1") ∧
    (0 < (⟨"o1", "f", "t", 5, 14, "chr1", 6, 15⟩ : CatRow).tcoord ∧
      (0 : Int) ≤ ((⟨"o1", "f", "t", 5, 14, "chr1", 6, 15⟩ : CatRow).tcoord
        : Int) - 1 ∧
      ∀ n : Nat, pyIdx
        (((⟨"o1", "f", "t", 5, 14, "chr1", 6, 15⟩ : CatRow).tcoord : Int)
          - 1) n = min ((⟨"o1", "f", "t", 5, 14, "chr1", 6, 15⟩ :
            CatRow).tcoord - 1) n) :=
  ⟨(C10_query_excludes_tcoord_zero
      [⟨"o0", "f", "t", 0, 9, "chr1", 1, 10⟩,
       ⟨"o1", "f", "t", 5, 14, "chr1", 6, 15⟩] "chr1"
      ⟨"o0", "f", "t", 0, 9, "chr1", 1, 10⟩).1,
   (C10_query_excludes_tcoord_zero
      [⟨"o0", "f", "t", 0, 9, "chr1", 1, 10⟩,
       ⟨"o1", "f", "t", 5, 14, "chr1", 6, 15⟩] "chr1"
      ⟨"o1", "f", "t", 5, 14, "chr1", 6, 15⟩).2 (by decide)⟩

/-! ### Claim C8: empty candidate sets give empty results, not errors -/

theorem retainedOf_strength_gt (cands : List Cand) (cols : List (List Rat))
    (xs : List Rat) :
    ∀ t ∈ retainedOf cands cols xs, minStr < t.2.2 := by
  intro t ht
  rw [retainedOf, List.mem_filterMap] at ht
  obtain ⟨a, _, ha⟩ := ht
  by_cases h : minStr < a.2
  · rw [if_pos h] at ha
    injection ha with ha
    rw [← ha]
    exact h
  · rw [if_neg h] at ha
    exact Option.noConfusion ha

/-- C8: each of the three ways the per-family candidate set can become
empty — the start-count pre-filter removing every ORF, every column
having non-positive correlation with the observed counts, or every
fitted NNLS weight falling below the tolerance — makes `_regress_tfam`
return the empty result tables (`failure_return`) rather than raise, and
a family with empty results contributes nothing to the chromosome-level
concatenation, which continues over the remaining families. -/
theorem C8_empty_results (P : FamParams) (tfam : String) (startonly : Bool)
    (nnlsFn : List (List Rat) → List Rat → List Rat × Rat)
    (orf_set0 : List OrfRow) (counts : List Rat) :
    (∀ startcount : Nat, startcount ≠ 0 →
      prefilteredSet P startcount counts orf_set0 = [] →
      regressCore P tfam startonly startcount nnlsFn orf_set0 counts =
        Except.ok emptyResults) ∧
    (∀ startcount : Nat, ∀ cols : List (List Rat),
      buildColumns P (buildCandidates tfam startonly
        (prefilteredSet P startcount counts orf_set0)) = Except.ok cols →
      (∀ col ∈ cols, dot col counts ≤ 0) →
      regressCore P tfam startonly startcount nnlsFn orf_set0 counts =
        Except.ok emptyResults) ∧
    (∀ startcount : Nat, ∀ cols : List (List Rat),
      buildColumns P (buildCandidates tfam startonly
        (prefilteredSet P startcount counts orf_set0)) = Except.ok cols →
      (∀ v ∈ (nnlsFn ((((buildCandidates tfam startonly
          (prefilteredSet P startcount counts orf_set0)).zip cols).filter
            (fun pc => 0 < dot pc.2 counts)).map Prod.snd) counts).1,
        v ≤ minStr) →
      regressCore P tfam startonly startcount nnlsFn orf_set0 counts =
        Except.ok emptyResults) ∧
    (∀ startcount : Nat, ∀ f : FamInput, ∀ rest : List FamInput,
      regressCore f.pars f.tfam startonly startcount nnlsFn f.orf_set
        f.counts = Except.ok emptyResults →
      regressChrom startonly startcount nnlsFn (f :: rest) =
        regressChrom startonly startcount nnlsFn rest) := by
  refine ⟨?_, ?_, ?_, ?_⟩
  · intro startcount h1 h2
    unfold regressCore
    rw [if_pos ⟨h1, h2⟩]
  · intro startcount cols hb hd
    unfold regressCore
    by_cases hempty : startcount ≠ 0 ∧
        prefilteredSet P startcount counts orf_set0 = []
    · rw [if_pos hempty]
    · rw [if_neg hempty, hb]
      have hpairs : ((buildCandidates tfam startonly
          (prefilteredSet P startcount counts orf_set0)).zip cols).filter
          (fun pc => 0 < dot pc.2 counts) = [] := by
        rw [List.filter_eq_nil_iff]
        intro pc hpc
        have hcol := (List.of_mem_zip hpc).2
        have hle := hd pc.2 hcol
        simp only [decide_eq_true_eq]
        exact not_lt.mpr hle
      dsimp only
      rw [hpairs, if_pos rfl]
  · intro startcount cols hb hv
    unfold regressCore
    by_cases hempty : startcount ≠ 0 ∧
        prefilteredSet P startcount counts orf_set0 = []
    · rw [if_pos hempty]
    · rw [if_neg hempty, hb]
      dsimp only
      by_cases hpairs : ((buildCandidates tfam startonly
          (prefilteredSet P startcount counts orf_set0)).zip cols).filter
          (fun pc => decide (0 < dot pc.2 counts)) = []
      · rw [hpairs, if_pos rfl]
      · rw [if_neg hpairs]
        have hret : retainedOf
            (((((buildCandidates tfam startonly
              (prefilteredSet P startcount counts orf_set0)).zip
              cols).filter (fun pc => decide (0 < dot pc.2 counts)))).map
                Prod.fst)
            (((((buildCandidates tfam startonly
              (prefilteredSet P startcount counts orf_set0)).zip
              cols).filter (fun pc => decide (0 < dot pc.2 counts)))).map
                Prod.snd)
            (nnlsFn (((((buildCandidates tfam startonly
              (prefilteredSet P startcount counts orf_set0)).zip
              cols).filter (fun pc => decide (0 < dot pc.2 counts)))).map
                Prod.snd) counts).1 = [] := by
          rw [retainedOf, List.filterMap_eq_nil_iff]
          intro t ht
          have hx := (List.of_mem_zip ht).2
          have hle := hv t.2 hx
          rw [if_neg (not_lt.mpr hle)]
        rw [hret, if_pos rfl]
  · intro startcount f rest hempty
    unfold regressChrom
    rw [List.mapM_cons]
    rw [hempty]
    cases hrest : rest.mapM (fun f => regressCore f.pars f.tfam startonly
        startcount nnlsFn f.orf_set f.counts) with
    | error e => rfl
    | ok rs => rfl

section

attribute [local semireducible] Rat.add Rat.mul Rat.sub Rat.inv

/-- Witness for C8: each empty-candidate condition at a concrete family
yields the empty result tables, and the chromosome loop drops such a
family from the concatenation. -/
theorem C8_empty_results_witness :
    (regressCore witParams "fam" true 1 zeroNnls [witRow]
        (List.replicate 20 0) = Except.ok emptyResults) ∧
    (regressCore witParams "fam" true 0 zeroNnls []
        (List.replicate 20 1) = Except.ok emptyResults) ∧
    (regressCore witParams "fam" true 0 zeroNnls [witRow]
        (List.replicate 20 1) = Except.ok emptyResults) ∧
    regressChrom true 1 zeroNnls
        [⟨witParams, "fam", [witRow], List.replicate 20 0⟩] =
      regressChrom true 1 zeroNnls [] :=
  by
  have ha : prefilteredSet witParams 1 (List.replicate 20 0) [witRow] =
      [] := by decide
  have hb : buildColumns witParams (buildCandidates "fam" true
      (prefilteredSet witParams 0 (List.replicate 20 1) [])) =
      Except.ok [] := by decide
  have hc : buildColumns witParams (buildCandidates "fam" true
      (prefilteredSet witParams 0 (List.replicate 20 1) [witRow])) =
      Except.ok witCols := by decide
  have h1 := (C8_empty_results witParams "fam" true zeroNnls [witRow]
    (List.replicate 20 0)).1 1 (by decide) ha
  have h2 := (C8_empty_results witParams "fam" true zeroNnls []
    (List.replicate 20 1)).2.1 0 [] hb (by decide)
  have h3 := (C8_empty_results witParams "fam" true zeroNnls [witRow]
    (List.replicate 20 1)).2.2.1 0 witCols hc (by decide)
  have h4 := (C8_empty_results witParams "fam" true zeroNnls []
    (List.replicate 20 0)).2.2.2 1
    ⟨witParams, "fam", [witRow], List.replicate 20 0⟩ [] h1
  exact ⟨h1, h2, h3, h4⟩

/-! ### Claim C5: NNLS non-negativity and the tolerance cut -/

theorem sumSq_nonneg (l : List Rat) : 0 ≤ sumSq l := by
  rw [sumSq]
  apply List.sum_nonneg
  intro x hx
  rw [List.mem_map] at hx
  obtain ⟨y, _, rfl⟩ := hx
  exact mul_self_nonneg y

/-- C5: the fitted NNLS coefficient vector is componentwise non-negative,
and every candidate appearing in the output orf_strengths table has
orf_strength strictly greater than the fixed tolerance 1e-6 (candidates
at or below the tolerance are dropped by the retention cut). -/
theorem C5_nnls_nonneg_tolerance (M : List (List Rat)) (c xs : List Rat)
    (resid : Rat) (hnnls : IsNNLS M c xs resid) (PL : Nat)
    (cands : List Cand) :
    (∀ v ∈ xs, 0 ≤ v) ∧
    ∀ o ∈ orfTableOf resid PL (retainedOf cands M xs),
      (1 : Rat) / 1000000 < o.orf_strength := by
  refine ⟨hnnls.2.1, ?_⟩
  intro o ho
  rw [orfTableOf, List.mem_map] at ho
  obtain ⟨i, hi, rfl⟩ := ho
  exact retainedOf_strength_gt cands M xs _
    (List.get_mem _ _ _)

/-- Witness for C5 at a one-column exactly-solvable system. -/
theorem C5_nnls_nonneg_tolerance_witness :
    IsNNLS [[1]] [1] [1] 0 ∧
    (∀ v ∈ ([1] : List Rat), 0 ≤ v) ∧
    ∀ o ∈ orfTableOf 0 1 (retainedOf [⟨witRow, OrfVariant.full⟩] [[1]]
        [1]),
      (1 : Rat) / 1000000 < o.orf_strength := by
  have hnnls : IsNNLS [[1]] [1] [1] 0 := by
    refine ⟨rfl, by decide, le_refl 0, ?_, ?_⟩
    · norm_num [sumSq, vecSub, matVecCols, vecAdd, scaleVec]
    · intro ys _ _
      rw [zero_mul]
      exact sumSq_nonneg _
  exact ⟨hnnls,
    C5_nnls_nonneg_tolerance [[1]] [1] [1] 0 hnnls 1
      [⟨witRow, OrfVariant.full⟩]⟩

/-! ### Claim C6: per-start aggregated strengths -/

/-- C6: each per-start aggregated strength equals exactly the sum of the
fitted strengths of the retained candidates at that genomic start, where
the group consists of the non-histop candidates (abortive included) in
start-only mode and of the full-length (elongating) candidates otherwise
— provided every candidate satisfies the field flags its block of origin
guarantees. -/
theorem C6_start_strengths (startonly : Bool) (rows : List OrfOut)
    (hfull : ∀ o ∈ rows, o.cand.variant = OrfVariant.full →
      o.cand.row.tcoord ≠ o.cand.row.tstop ∧
      o.cand.row.gcoord ≠ o.cand.row.gstop)
    (habort : ∀ o ∈ rows, o.cand.variant = OrfVariant.abortive →
      o.cand.row.gstop = o.cand.row.gcoord ∧
      o.cand.row.tcoord ≠ o.cand.row.tstop)
    (hhistop : ∀ o ∈ rows, o.cand.variant = OrfVariant.histop →
      o.cand.row.tcoord = o.cand.row.tstop ∧
      o.cand.row.gcoord = o.cand.row.gstop)
    (g : Nat) (v : Rat) (hmem : (g, v) ∈ startTableOf startonly rows) :
    v = ((rows.filter (fun o => o.cand.row.gcoord == g &&
      (if startonly then o.cand.variant != OrfVariant.histop
       else o.cand.variant == OrfVariant.full))).map
      (fun o => o.orf_strength)).sum := by
  rw [startTableOf, List.mem_map] at hmem
  obtain ⟨g0, hg0, hpair⟩ := hmem
  rw [Prod.mk.injEq] at hpair
  obtain ⟨rfl, rfl⟩ := hpair
  congr 1
  rw [List.filter_filter]
  congr 1
  apply List.filter_congr
  intro o ho
  have hmask : (if startonly then o.cand.row.tcoord != o.cand.row.tstop
      else o.cand.row.gstop != o.cand.row.gcoord) =
      (if startonly then o.cand.variant != OrfVariant.histop
       else o.cand.variant == OrfVariant.full) := by
    cases hvar : o.cand.variant with
    | full =>
      obtain ⟨h1, h2⟩ := hfull o ho hvar
      cases startonly <;>
        (apply Bool.eq_iff_iff.mpr
         simp [bne_iff_ne, h1, Ne.symm h2])
    | abortive =>
      obtain ⟨h1, h2⟩ := habort o ho hvar
      cases startonly <;>
        (apply Bool.eq_iff_iff.mpr
         simp [bne_iff_ne, h1, h2])
    | histop =>
      obtain ⟨h1, h2⟩ := hhistop o ho hvar
      cases startonly <;>
        (apply Bool.eq_iff_iff.mpr
         simp [bne_iff_ne, h1, h2])
  rw [hmask]

/-- Witness for C6: a full ORF of strength 2, an abortive variant of
strength 3 at the same genomic start 103, and a histop variant; in
start-only mode the per-start strength at 103 is 2 + 3 = 5. -/
theorem C6_start_strengths_witness :
    ((103, (5 : Rat)) ∈ startTableOf true
      [⟨⟨⟨"o1", "t", 3, 15, 103, 115, "ATG"⟩, OrfVariant.full⟩, 2, 7⟩,
       ⟨⟨⟨"fam_103_abort", "t", 3, 6, 103, 103, "ATG"⟩,
         OrfVariant.abortive⟩, 3, 7⟩,
       ⟨⟨⟨"fam_115_stop", "t", 15, 15, 115, 115, "ATG"⟩,
         OrfVariant.histop⟩, 4, 7⟩]) ∧
    (5 : Rat) = (([
       (⟨⟨⟨"o1", "t", 3, 15, 103, 115, "ATG"⟩, OrfVariant.full⟩, 2, 7⟩ :
         OrfOut),
       ⟨⟨⟨"fam_103_abort", "t", 3, 6, 103, 103, "ATG"⟩,
         OrfVariant.abortive⟩, 3, 7⟩,
       ⟨⟨⟨"fam_115_stop", "t", 15, 15, 115, 115, "ATG"⟩,
         OrfVariant.histop⟩, 4, 7⟩].filter (fun o =>
           o.cand.row.gcoord == 103 &&
             (if true then o.cand.variant != OrfVariant.histop
              else o.cand.variant == OrfVariant.full))).map
        (fun o => o.orf_strength)).sum :=
  ⟨by decide,
   C6_start_strengths true
     [⟨⟨⟨"o1", "t", 3, 15, 103, 115, "ATG"⟩, OrfVariant.full⟩, 2, 7⟩,
      ⟨⟨⟨"fam_103_abort", "t", 3, 6, 103, 103, "ATG"⟩,
        OrfVariant.abortive⟩, 3, 7⟩,
      ⟨⟨⟨"fam_115_stop", "t", 15, 15, 115, 115, "ATG"⟩,
        OrfVariant.histop⟩, 4, 7⟩]
     (by decide) (by decide) (by decide) 103 5 (by decide)⟩

end

theorem dot_eq_sum_fin (n : Nat) :
    ∀ u v : List Rat, u.length = n → v.length = n →
    dot u v = ∑ p : Fin n, u.getD p.val 0 * v.getD p.val 0 := by
  induction n with
  | zero =>
    intro u v hu hv
    rw [List.length_eq_zero] at hu hv
    subst hu
    subst hv
    simp [dot]
  | succ n ih =>
    intro u v hu hv
    cases u with
    | nil => simp at hu
    | cons a u =>
      cases v with
      | nil => simp at hv
      | cons b v =>
        rw [List.length_cons] at hu hv
        have hu2 : u.length = n := Nat.succ.inj hu
        have hv2 : v.length = n := Nat.succ.inj hv
        rw [Fin.sum_univ_succ]
        simp only [Fin.val_zero, List.getD_cons_zero, Fin.val_succ,
          List.getD_cons_succ]
        rw [← ih u v hu2 hv2, dot, dot, List.zipWith_cons_cons,
          List.sum_cons]

/-- When every retained column has the full flattened length, the Gram
matrix of `_regress_tfam` is the matrix product `Mᵀ M` of the design
matrix. -/
theorem gramOf_eq_design (PL : Nat) (ret : List (Cand × List Rat × Rat))
    (hlen : ∀ c ∈ ret, c.2.1.length = PL) :
    gramOf ret =
      (designMatrixOf PL ret).transpose * designMatrixOf PL ret := by
  ext a b
  rw [Matrix.mul_apply]
  simp only [Matrix.transpose_apply, designMatrixOf, Matrix.of_apply,
    gramOf]
  exact dot_eq_sum_fin PL _ _ (hlen _ (ret.get_mem a.val a.isLt))
    (hlen _ (ret.get_mem b.val b.isLt))

/-- The adjugate-formula inverse coincides with the Mathlib matrix
inverse over the rationals. -/
theorem matInv_eq_inv {k : Nat} (A : Matrix (Fin k) (Fin k) Rat) :
    matInv A = A⁻¹ := by
  rw [matInv, Matrix.inv_def, Ring.inverse_eq_inv]

/-- C4: with `k` candidates retained after the tolerance cut and every
retained column spanning the flattened axis of `PL = positions *
read-lengths` entries, the covariance estimate of `_regress_tfam` equals
`resid^2 * (M^T M)^{-1} / (PL - k)` for the design matrix `M`, and every
row of the per-ORF table carries the Wald statistic `strength^2` divided
by the corresponding diagonal entry of that covariance matrix. -/
theorem C4_covariance_wald (resid : Rat) (PL : Nat)
    (ret : List (Cand × List Rat × Rat))
    (hlen : ∀ c ∈ ret, c.2.1.length = PL) :
    covMatrixOf resid PL ret =
      (resid * resid / ((PL : Rat) - ret.length)) •
        ((designMatrixOf PL ret).transpose * designMatrixOf PL ret)⁻¹ ∧
    orfTableOf resid PL ret = (List.finRange ret.length).map (fun i =>
      ⟨(ret.get i).1, (ret.get i).2.2,
       (ret.get i).2.2 * (ret.get i).2.2 /
         ((resid * resid / ((PL : Rat) - ret.length)) •
           ((designMatrixOf PL ret).transpose * designMatrixOf PL ret)⁻¹)
           i i⟩) := by
  have h1 : covMatrixOf resid PL ret =
      (resid * resid / ((PL : Rat) - ret.length)) •
        ((designMatrixOf PL ret).transpose * designMatrixOf PL ret)⁻¹ := by
    rw [covMatrixOf, matInv_eq_inv, gramOf_eq_design PL ret hlen]
  exact ⟨h1, by simp only [orfTableOf, h1]⟩

/-- Witness for C4 at a single retained candidate whose column spans a
two-entry flattened axis. -/
theorem C4_covariance_wald_witness :
    (∀ c ∈ retW, c.2.1.length = 2) ∧
    (covMatrixOf 1 2 retW =
      (1 * 1 / ((2 : Rat) - retW.length)) •
        ((designMatrixOf 2 retW).transpose * designMatrixOf 2 retW)⁻¹ ∧
    orfTableOf 1 2 retW = (List.finRange retW.length).map (fun i =>
      ⟨(retW.get i).1, (retW.get i).2.2,
       (retW.get i).2.2 * (retW.get i).2.2 /
         ((1 * 1 / ((2 : Rat) - retW.length)) •
           ((designMatrixOf 2 retW).transpose * designMatrixOf 2 retW)⁻¹)
           i i⟩)) :=
  ⟨by decide, C4_covariance_wald 1 2 retW (by decide)⟩

end ORFR
